import Mathlib

/-!
Verification development for the core of `spg` (src/spg.c), a streaming text
pager.  The C code is shallowly embedded: runes (`Rune`, C `int_fast32_t`) are
`Int` with the sentinels `RUNE_EOF = -1`, `RUNE_INCOMPLETE = -2` and
`RUNE_INVALID = 0xFFFD`; bytes are `Nat` (values `< 256`; all the C masking
operations only inspect the low 8 bits, so the signed-`char` reads of the
original behave identically on this representation); `size_t` counters are
`Nat`, with the one wrapping subtraction modelled explicitly mod `2^64`.
Stateful code becomes explicit state passing on `Input`, `Buffer`, `Window`
and `Prompt` records; the input-draining loops that the C program can spin in
forever are modelled with explicit fuel and return `Option`.
-/

namespace Spg

/-- `RUNE_EOF` from src/spg.c: end-of-line / end-of-input sentinel. -/
def RUNE_EOF : Int := -1

/-- `RUNE_INCOMPLETE` from src/spg.c: partial multi-byte sequence marker. -/
def RUNE_INCOMPLETE : Int := -2

/-- `RUNE_INVALID` from src/spg.c: the replacement codepoint U+FFFD. -/
def RUNE_INVALID : Int := 0xFFFD

/-- `TABWIDTH` from config.def.h. -/
def TABWIDTH : Nat := 8

/-- `nexttabstop` from src/spg.c: `(col + TABWIDTH) / TABWIDTH * TABWIDTH`. -/
def nexttabstop (col : Nat) : Nat := (col + TABWIDTH) / TABWIDTH * TABWIDTH

/-- C `iscntrl` on the values `printwidth` receives: true exactly on the
control characters 0x00–0x1F and 0x7F (and false on every other rune value,
in particular on the sentinels and on all printable codepoints). -/
def iscntrl (r : Int) : Bool := (0 ≤ r && r ≤ 0x1F) || r = 0x7F

/-- `printwidth` from src/spg.c: control characters print as two cells
(`^X`), tab and newline are special-cased to 0, everything else is 1. -/
def printwidth (r : Int) : Nat :=
  if iscntrl r then 2
  else if r = 10 || r = 9 then 0
  else 1

/-- The continuation-byte loop inside `utfdecode` from src/spg.c:
`got = (got << 6) | (s[i] & 0x3F)` for each continuation byte, `none` if a
byte fails the `(s[i] & 0xC0) == 0x80` test. -/
def utfaccum (got : Nat) : List Nat → Option Nat
  | [] => some got
  | b :: bs =>
    if b &&& 0xC0 = 0x80 then utfaccum ((got <<< 6) ||| (b &&& 0x3F)) bs
    else none

/-- The part of `utfdecode` from src/spg.c after the lead byte has selected
a sequence length: the truncation check `bytes > len`, the continuation
loop, and the surrogate check (the code after the multi-byte `if` chain up
to the `done:` label). -/
def utfdecodeTail (s : List Nat) (got0 bytes : Nat) : Int × Nat :=
  if s.length < bytes then (RUNE_INVALID, 1)
  else
    match utfaccum got0 ((s.drop 1).take (bytes - 1)) with
    | none => (RUNE_INVALID, 1)
    | some got =>
      if 0xD800 ≤ got ∧ got ≤ 0xDFFF then (RUNE_INVALID, 1)
      else ((got : Int), bytes)

/-- `utfdecode` from src/spg.c.  Takes the available bytes, returns the
decoded rune and the number of bytes consumed.  Mirrors the source exactly:
empty input gives `(0, 0)`; an ASCII byte decodes to itself; a malformed
lead byte, a truncated sequence, a bad continuation byte, or a decoded
value in the surrogate range all give `(RUNE_INVALID, 1)`. -/
def utfdecode (s : List Nat) : Int × Nat :=
  match s with
  | [] => (0, 0)
  | b0 :: _ =>
    if b0 &&& 0x80 = 0 then ((b0 : Int), 1)
    else if b0 &&& 0xF8 = 0xF0 then utfdecodeTail s (b0 &&& 0x7) 4
    else if b0 &&& 0xF0 = 0xE0 then utfdecodeTail s (b0 &&& 0xF) 3
    else if b0 &&& 0xE0 = 0xC0 then utfdecodeTail s (b0 &&& 0x1F) 2
    else (RUNE_INVALID, 1)

/-- `utfencode` from src/spg.c: encodes a rune into 1–4 bytes; out-of-range
runes (negative or above U+10FFFF) produce no bytes. -/
def utfencode (r : Int) : List Nat :=
  if r < 0 ∨ 0x10FFFF < r then []
  else
    let n := r.toNat
    if n ≤ 0x7F then [n]
    else if n ≤ 0x7FF then
      [0xC0 ||| ((n >>> 6) &&& 0x1F), 0x80 ||| (n &&& 0x3F)]
    else if n ≤ 0xFFFF then
      [0xE0 ||| ((n >>> 12) &&& 0x0F), 0x80 ||| ((n >>> 6) &&& 0x3F),
       0x80 ||| (n &&& 0x3F)]
    else
      [0xF0 ||| ((n >>> 18) &&& 0x07), 0x80 ||| ((n >>> 12) &&& 0x3F),
       0x80 ||| ((n >>> 6) &&& 0x3F), 0x80 ||| (n &&& 0x3F)]

/-- `utfpeeklen` from src/spg.c: expected sequence length from a lead byte. -/
def utfpeeklen (b : Nat) : Nat :=
  if b &&& 0xF8 = 0xF0 then 4
  else if b &&& 0xF0 = 0xE0 then 3
  else if b &&& 0xE0 = 0xC0 then 2
  else 1

/-- Recombination lemma for the shift-or accumulation: if the low `k` bits
of the shifted operand are free, or is addition. -/
theorem shiftor_eq (a b k : Nat) (h : b < 2 ^ k) :
    (a <<< k) ||| b = 2 ^ k * a + b := by
  have hm : ((a <<< k) ||| b) % 2 ^ k = b := by
    apply Nat.eq_of_testBit_eq
    intro i
    rw [Nat.testBit_mod_two_pow, Nat.testBit_or, Nat.testBit_shiftLeft]
    by_cases hik : i < k
    · have h1 : decide (i < k) = true := by simpa using hik
      have h2 : decide (i ≥ k) = false := by simp [Nat.not_le.mpr hik]
      simp [h1, h2]
    · have h1 : decide (i < k) = false := by simp [hik]
      have hb : b < 2 ^ i :=
        lt_of_lt_of_le h (Nat.pow_le_pow_right (by norm_num) (Nat.le_of_not_lt hik))
      simp [h1, Nat.testBit_lt_two_pow hb]
  have hdvd : ((a <<< k) ||| b) >>> k = a := by
    apply Nat.eq_of_testBit_eq
    intro i
    rw [Nat.testBit_shiftRight, Nat.testBit_or, Nat.testBit_shiftLeft]
    have hb : b < 2 ^ (k + i) :=
      lt_of_lt_of_le h (Nat.pow_le_pow_right (by norm_num) (Nat.le_add_right _ _))
    have h2 : decide (k + i ≥ k) = true := by simp [Nat.le_add_right k i]
    simp [h2, Nat.testBit_lt_two_pow hb]
  rw [Nat.shiftRight_eq_div_pow] at hdvd
  have := Nat.div_add_mod ((a <<< k) ||| b) (2 ^ k)
  rw [hdvd, hm] at this
  omega

/-- Shape of the continuation bytes `utfencode` emits. -/
theorem cont_facts :
    ∀ x, x < 64 → (0x80 ||| x) &&& 0xC0 = 0x80 ∧ (0x80 ||| x) &&& 0x3F = x ∧
      ¬(0x80 ||| x) &&& 0x80 = 0 := by decide

/-- Shape of the two-byte lead bytes `utfencode` emits. -/
theorem lead2_facts :
    ∀ y, y < 32 → ¬(0xC0 ||| y) &&& 0x80 = 0 ∧ ¬(0xC0 ||| y) &&& 0xF8 = 0xF0 ∧
      ¬(0xC0 ||| y) &&& 0xF0 = 0xE0 ∧ (0xC0 ||| y) &&& 0xE0 = 0xC0 ∧
      (0xC0 ||| y) &&& 0x1F = y := by decide

/-- Shape of the three-byte lead bytes `utfencode` emits. -/
theorem lead3_facts :
    ∀ y, y < 16 → ¬(0xE0 ||| y) &&& 0x80 = 0 ∧ ¬(0xE0 ||| y) &&& 0xF8 = 0xF0 ∧
      (0xE0 ||| y) &&& 0xF0 = 0xE0 ∧ (0xE0 ||| y) &&& 0xF = y := by decide

/-- Shape of the four-byte lead bytes `utfencode` emits. -/
theorem lead4_facts :
    ∀ y, y < 8 → ¬(0xF0 ||| y) &&& 0x80 = 0 ∧ (0xF0 ||| y) &&& 0xF8 = 0xF0 ∧
      (0xF0 ||| y) &&& 0x7 = y := by decide

/-- ASCII bytes pass the high-bit test. -/
theorem ascii_fact : ∀ m, m < 128 → m &&& 0x80 = 0 := by decide

/-- Masking with `0x3F` is reduction mod 64. -/
theorem and_3F (n : Nat) : n &&& 0x3F = n % 64 := by
  have h := Nat.and_pow_two_sub_one_eq_mod n 6
  norm_num at h
  exact h

/-- Under its bound, masking a shifted value is exact division. -/
theorem shr_and (n k m b : Nat) (hb : 2 ^ b - 1 = m) (h : n / 2 ^ k < 2 ^ b) :
    (n >>> k) &&& m = n / 2 ^ k := by
  rw [Nat.shiftRight_eq_div_pow, ← hb]
  exact Nat.and_pow_two_sub_one_of_lt_two_pow h

/-- C6: every codepoint in [0, 0x10FFFF] outside the surrogate range
[0xD800, 0xDFFF] encodes to between 1 and 4 bytes, and `utfdecode` on those
bytes returns exactly that codepoint, consuming exactly the encoded
length. -/
theorem utf8_roundtrip (r : Int) (h0 : 0 ≤ r) (h1 : r ≤ 0x10FFFF)
    (hs : ¬(0xD800 ≤ r ∧ r ≤ 0xDFFF)) :
    (1 ≤ (utfencode r).length ∧ (utfencode r).length ≤ 4) ∧
      utfdecode (utfencode r) = (r, (utfencode r).length) := by
  obtain ⟨n, rfl⟩ := Int.eq_ofNat_of_zero_le h0
  have h1' : n ≤ 0x10FFFF := by exact_mod_cast h1
  have hs' : ¬(0xD800 ≤ n ∧ n ≤ 0xDFFF) := by
    intro ⟨a, b⟩
    exact hs ⟨by exact_mod_cast a, by exact_mod_cast b⟩
  have henc : utfencode (n : Int) =
      (if n ≤ 0x7F then [n]
       else if n ≤ 0x7FF then
         [0xC0 ||| ((n >>> 6) &&& 0x1F), 0x80 ||| (n &&& 0x3F)]
       else if n ≤ 0xFFFF then
         [0xE0 ||| ((n >>> 12) &&& 0x0F), 0x80 ||| ((n >>> 6) &&& 0x3F),
          0x80 ||| (n &&& 0x3F)]
       else
         [0xF0 ||| ((n >>> 18) &&& 0x07), 0x80 ||| ((n >>> 12) &&& 0x3F),
          0x80 ||| ((n >>> 6) &&& 0x3F), 0x80 ||| (n &&& 0x3F)]) := by
    rw [utfencode, if_neg]
    · simp
    · push_neg
      constructor
      · exact_mod_cast h0
      · exact h1
  by_cases c1 : n ≤ 0x7F
  · rw [henc, if_pos c1]
    refine ⟨by simp, ?_⟩
    rw [utfdecode, if_pos (ascii_fact n (by omega))]
    simp
  · by_cases c2 : n ≤ 0x7FF
    · rw [henc, if_neg c1, if_pos c2]
      refine ⟨by simp, ?_⟩
      have e1 : (n >>> 6) &&& 0x1F = n / 64 :=
        shr_and n 6 0x1F 5 (by norm_num) (by omega)
      have e0 : n &&& 0x3F = n % 64 := and_3F n
      rw [e1, e0]
      obtain ⟨f1, f2, f3, f4, f5⟩ := lead2_facts (n / 64) (by omega)
      obtain ⟨g1, g2, -⟩ := cont_facts (n % 64) (by omega)
      rw [utfdecode, if_neg f1, if_neg f2, if_neg f3, if_pos f4, f5,
        utfdecodeTail, if_neg (by simp)]
      simp only [List.drop_succ_cons, List.drop_zero, List.take_succ_cons,
        List.take_zero, utfaccum, if_pos g1, g2]
      have hacc : ((n / 64) <<< 6) ||| n % 64 = n := by
        rw [shiftor_eq _ _ 6 (by omega)]
        omega
      rw [hacc, if_neg (by omega)]
      simp
    · by_cases c3 : n ≤ 0xFFFF
      · rw [henc, if_neg c1, if_neg c2, if_pos c3]
        refine ⟨by simp, ?_⟩
        have e2 : (n >>> 12) &&& 0x0F = n / 4096 :=
          shr_and n 12 0x0F 4 (by norm_num) (by omega)
        have e1 : (n >>> 6) &&& 0x3F = n / 64 % 64 := by
          rw [Nat.shiftRight_eq_div_pow, and_3F]
        have e0 : n &&& 0x3F = n % 64 := and_3F n
        rw [e2, e1, e0]
        obtain ⟨f1, f2, f3, f4⟩ := lead3_facts (n / 4096) (by omega)
        obtain ⟨g1, g2, -⟩ := cont_facts (n / 64 % 64) (by omega)
        obtain ⟨k1, k2, -⟩ := cont_facts (n % 64) (by omega)
        rw [utfdecode, if_neg f1, if_neg f2, if_pos f3, f4,
          utfdecodeTail, if_neg (by simp)]
        simp only [List.drop_succ_cons, List.drop_zero, List.take_succ_cons,
          List.take_zero, utfaccum, if_pos g1, g2, if_pos k1, k2]
        have hacc : ((((n / 4096) <<< 6) ||| n / 64 % 64) <<< 6) ||| n % 64
            = n := by
          rw [shiftor_eq _ _ 6 (by omega), shiftor_eq _ _ 6 (by omega)]
          omega
        rw [hacc, if_neg (by omega)]
        simp
      · rw [henc, if_neg c1, if_neg c2, if_neg c3]
        refine ⟨by simp, ?_⟩
        have e3 : (n >>> 18) &&& 0x07 = n / 262144 :=
          shr_and n 18 0x07 3 (by norm_num) (by omega)
        have e2 : (n >>> 12) &&& 0x3F = n / 4096 % 64 := by
          rw [Nat.shiftRight_eq_div_pow, and_3F]
        have e1 : (n >>> 6) &&& 0x3F = n / 64 % 64 := by
          rw [Nat.shiftRight_eq_div_pow, and_3F]
        have e0 : n &&& 0x3F = n % 64 := and_3F n
        rw [e3, e2, e1, e0]
        obtain ⟨f1, f2, f3⟩ := lead4_facts (n / 262144) (by omega)
        obtain ⟨g1, g2, -⟩ := cont_facts (n / 4096 % 64) (by omega)
        obtain ⟨k1, k2, -⟩ := cont_facts (n / 64 % 64) (by omega)
        obtain ⟨m1, m2, -⟩ := cont_facts (n % 64) (by omega)
        rw [utfdecode, if_neg f1, if_pos f2, f3,
          utfdecodeTail, if_neg (by simp)]
        simp only [List.drop_succ_cons, List.drop_zero, List.take_succ_cons,
          List.take_zero, utfaccum, if_pos g1, g2, if_pos k1, k2,
          if_pos m1, m2]
        have hacc :
            ((((((n / 262144) <<< 6) ||| n / 4096 % 64) <<< 6) |||
              n / 64 % 64) <<< 6) ||| n % 64 = n := by
          rw [shiftor_eq _ _ 6 (by omega), shiftor_eq _ _ 6 (by omega),
            shiftor_eq _ _ 6 (by omega)]
          omega
        rw [hacc, if_neg (by omega)]
        simp

/-- Witness for C6 at the concrete codepoint U+00E9. -/
theorem utf8_roundtrip_witness :
    (1 ≤ (utfencode 0xE9).length ∧ (utfencode 0xE9).length ≤ 4) ∧
      utfdecode (utfencode 0xE9) = (0xE9, (utfencode 0xE9).length) :=
  utf8_roundtrip 0xE9 (by decide) (by decide) (by decide)

/-- The lead-byte classification performed by the multi-byte `if` chain of
`utfdecode`: the initial accumulator and announced sequence length, `none`
when no multi-byte pattern matches. -/
def leadInfo (b0 : Nat) : Option (Nat × Nat) :=
  if b0 &&& 0xF8 = 0xF0 then some (b0 &&& 0x7, 4)
  else if b0 &&& 0xF0 = 0xE0 then some (b0 &&& 0xF, 3)
  else if b0 &&& 0xE0 = 0xC0 then some (b0 &&& 0x1F, 2)
  else none

/-- `utfdecode` on a non-ASCII first byte dispatches through `leadInfo`. -/
theorem utfdecode_cons_lead (b0 : Nat) (rest : List Nat)
    (hb : ¬b0 &&& 0x80 = 0) :
    utfdecode (b0 :: rest) =
      match leadInfo b0 with
      | none => (RUNE_INVALID, 1)
      | some (g, k) => utfdecodeTail (b0 :: rest) g k := by
  rw [utfdecode, if_neg hb]
  unfold leadInfo
  by_cases h4 : b0 &&& 0xF8 = 0xF0
  · simp [h4]
  · by_cases h3 : b0 &&& 0xF0 = 0xE0
    · simp [h4, h3]
    · by_cases h2 : b0 &&& 0xE0 = 0xC0 <;> simp [h4, h3, h2]

/-- Any byte matching a multi-byte lead pattern has its high bit set. -/
theorem leadInfo_highbit (b0 : Nat) (g k : Nat)
    (h : leadInfo b0 = some (g, k)) : ¬b0 &&& 0x80 = 0 := by
  have mask : ∀ m, m &&& 0xF8 = 0xF0 ∨ m &&& 0xF0 = 0xE0 ∨ m &&& 0xE0 = 0xC0 →
      ¬m &&& 0x80 = 0 := by
    intro m hm hz
    have k1 : (0xF8 : Nat) &&& 0x80 = 0x80 := by decide
    have k2 : (0xF0 : Nat) &&& 0x80 = 0x80 := by decide
    have k3 : (0xE0 : Nat) &&& 0x80 = 0x80 := by decide
    rcases hm with h | h | h
    · rw [← k1, ← Nat.and_assoc, h] at hz
      simp at hz
    · rw [← k2, ← Nat.and_assoc, h] at hz
      simp at hz
    · rw [← k3, ← Nat.and_assoc, h] at hz
      simp at hz
  unfold leadInfo at h
  by_cases h4 : b0 &&& 0xF8 = 0xF0
  · exact mask b0 (Or.inl h4)
  · by_cases h3 : b0 &&& 0xF0 = 0xE0
    · exact mask b0 (Or.inr (Or.inl h3))
    · by_cases h2 : b0 &&& 0xE0 = 0xC0
      · exact mask b0 (Or.inr (Or.inr h2))
      · simp [h4, h3, h2] at h

/-- The continuation loop rejects exactly when some byte fails the
`(s[i] & 0xC0) == 0x80` test. -/
theorem utfaccum_none_iff (g : Nat) (bs : List Nat) :
    utfaccum g bs = none ↔ ∃ b ∈ bs, ¬b &&& 0xC0 = 0x80 := by
  induction bs generalizing g with
  | nil => simp [utfaccum]
  | cons b bs ih =>
    simp only [utfaccum]
    by_cases hb : b &&& 0xC0 = 0x80
    · simp [hb, ih]
    · simp [hb]

/-- C7: a malformed lead byte (including a bare continuation byte), a
truncated multi-byte sequence, an invalid continuation byte, or a sequence
decoding into the surrogate range all make `utfdecode` return the
replacement codepoint U+FFFD consuming exactly one byte; and on any
non-empty input the decoder consumes at least one byte (forward
progress). -/
theorem utf8_singlebyte_resync :
    (∀ b0 rest,
      ((¬b0 &&& 0x80 = 0 ∧ leadInfo b0 = none)
        ∨ (∃ g k, leadInfo b0 = some (g, k) ∧ (b0 :: rest).length < k)
        ∨ (∃ g k, leadInfo b0 = some (g, k) ∧ ¬(b0 :: rest).length < k ∧
            ∃ b ∈ rest.take (k - 1), ¬b &&& 0xC0 = 0x80)
        ∨ (∃ g k got, leadInfo b0 = some (g, k) ∧ ¬(b0 :: rest).length < k ∧
            utfaccum g (rest.take (k - 1)) = some got ∧
            0xD800 ≤ got ∧ got ≤ 0xDFFF)) →
      utfdecode (b0 :: rest) = (RUNE_INVALID, 1))
    ∧ (∀ b0 rest, 1 ≤ (utfdecode (b0 :: rest)).2) := by
  have tail2 : ∀ s g k, 0 < k → 1 ≤ (utfdecodeTail s g k).2 := by
    intro s g k hk
    rw [utfdecodeTail]
    by_cases h1 : s.length < k
    · simp [h1]
    · rw [if_neg h1]
      cases hacc : utfaccum g ((s.drop 1).take (k - 1)) with
      | none => simp
      | some got =>
        by_cases hsur : 0xD800 ≤ got ∧ got ≤ 0xDFFF
        · simp [hsur]
        · simp [hsur]
          omega
  constructor
  · intro b0 rest h
    rcases h with ⟨hb, hn⟩ | ⟨g, k, hl, hlen⟩ |
      ⟨g, k, hl, hlen, hbad⟩ | ⟨g, k, got, hl, hlen, hacc, hs1, hs2⟩
    · rw [utfdecode_cons_lead b0 rest hb, hn]
    · rw [utfdecode_cons_lead b0 rest (leadInfo_highbit b0 g k hl), hl]
      simp only [utfdecodeTail, if_pos hlen]
    · rw [utfdecode_cons_lead b0 rest (leadInfo_highbit b0 g k hl), hl]
      simp only [utfdecodeTail, if_neg hlen, List.drop_succ_cons,
        List.drop_zero]
      rw [(utfaccum_none_iff g (rest.take (k - 1))).mpr hbad]
    · rw [utfdecode_cons_lead b0 rest (leadInfo_highbit b0 g k hl), hl]
      simp only [utfdecodeTail, if_neg hlen, List.drop_succ_cons,
        List.drop_zero, hacc]
      rw [if_pos ⟨hs1, hs2⟩]
  · intro b0 rest
    rw [utfdecode]
    by_cases ha : b0 &&& 0x80 = 0
    · simp [ha]
    · rw [if_neg ha]
      by_cases h4 : b0 &&& 0xF8 = 0xF0
      · rw [if_pos h4]
        exact tail2 _ _ _ (by omega)
      · rw [if_neg h4]
        by_cases h3 : b0 &&& 0xF0 = 0xE0
        · rw [if_pos h3]
          exact tail2 _ _ _ (by omega)
        · rw [if_neg h3]
          by_cases h2 : b0 &&& 0xE0 = 0xC0
          · rw [if_pos h2]
            exact tail2 _ _ _ (by omega)
          · rw [if_neg h2]

/-- Witness for C7 at the concrete bare continuation byte 0x80. -/
theorem utf8_singlebyte_resync_witness :
    utfdecode [0x80] = (RUNE_INVALID, 1) :=
  utf8_singlebyte_resync.1 0x80 [] (Or.inl ⟨by decide, by decide⟩)

/-- `KEY_BACKSPACE` from src/spg.c. -/
def KEY_BACKSPACE : Nat := 0x7F

/-- `KEY_ESCAPE` from src/spg.c. -/
def KEY_ESCAPE : Nat := 0x1B

/-- `KEY_RETURN` from src/spg.c. -/
def KEY_RETURN : Nat := 10

/-- `size_t` subtraction: wraps modulo `2^64` like the C type. -/
def sizetSub (a b : Nat) : Nat := (a + (2 ^ 64 - b % 2 ^ 64)) % 2 ^ 64

/-- `struct Prompt` from src/spg.c.  `len` is `text.length`, `buflen` is
`buf.length`; the geometric capacity growth of `text` (never observable)
is dropped.  The bound search action is invoked on the surrounding window
state and is not part of the prompt state itself. -/
structure Prompt where
  text : List Int
  buf : List Nat
  col : Nat
  active : Bool
  prompt : Int
deriving Repr, DecidableEq

/-- `promptnew` from src/spg.c. -/
def promptnew (prompt : Int) : Prompt :=
  { text := [], buf := [], col := 0, active := false, prompt := prompt }

/-- `promptputchar` from src/spg.c, exactly as written: the byte is
appended to the lookahead buffer, and the decode happens under the
condition `rlen >= p->buflen` of the source (the expected sequence length
from `utfpeeklen` is at least the number of buffered bytes). -/
def promptputchar (p : Prompt) (c : Nat) : Int × Prompt :=
  let buf := p.buf ++ [c]
  let rlen := utfpeeklen (buf.headD 0)
  if buf.length ≤ rlen then
    let dec := utfdecode buf
    let r := dec.1
    let buf' := buf.drop dec.2
    (r, { p with buf := buf', text := p.text ++ [r] })
  else
    (RUNE_INCOMPLETE, { p with buf := buf })

/-- The column arithmetic of `uiprint` from src/spg.c (the terminal writes
are external I/O and contribute nothing to the state): newline keeps the
column, tab advances to the next tab stop clamped to the window width,
anything else advances by `printwidth`, resetting to column 0 on
overflow. -/
def uiprint (cols : Nat) (r : Int) (col : Nat) : Nat :=
  if r = 10 then col
  else if r = 9 then
    let w0 := nexttabstop col - col
    let w := if cols ≤ col + w0 then sizetSub (sizetSub cols col) 1 else w0
    (col + w) % 2 ^ 64
  else
    let w := printwidth r
    let col := if cols < col + w then 0 else col
    col + w

/-- `uipromptkey` from src/spg.c: return commits (deactivates; the bound
search action then runs on the window), escape cancels, backspace removes
the last codepoint — note the source computes `printwidth(--p->len)`, the
print width OF THE NEW LENGTH VALUE, not of the removed codepoint — and
any other byte goes through `promptputchar`. -/
def uipromptkey (cols : Nat) (p : Prompt) (key : Nat) : Prompt :=
  if key = KEY_RETURN then { p with active := false }
  else if key = KEY_ESCAPE then { p with text := [], col := 0, active := false }
  else if key = KEY_BACKSPACE then
    if 0 < p.text.length then
      { p with text := p.text.dropLast,
               col := sizetSub p.col (printwidth ((p.text.length - 1 : Nat) : Int)) }
    else p
  else
    let res := promptputchar p key
    if res.1 ≠ RUNE_INCOMPLETE then
      { res.2 with col := uiprint cols res.1 res.2.col }
    else res.2

/-- A freshly opened, active search prompt (empty query, column 0). -/
def promptFresh : Prompt := ⟨[], [], 0, true, 47⟩

/-- An active search prompt holding the query "ab" at display column 2. -/
def promptAB : Prompt := ⟨[97, 98], [], 2, true, 47⟩

/-- C1 (code bug): feeding the first byte 0xC3 of the two-byte encoding of
U+00E9 to an active prompt does NOT return the incomplete-decode marker:
because `promptputchar` tests `rlen >= p->buflen` (instead of
`rlen <= p->buflen`), it decodes the lone lead byte at once, appends
U+FFFD to the query and returns it; the second byte 0xA9 then also decodes
to U+FFFD, so the complete two-byte encoding appends two replacement
codepoints instead of the single codepoint U+00E9 that the partial
multi-byte accumulation described by the specification would produce. -/
theorem promptputchar_code_bug :
    (promptputchar promptFresh 0xC3).1 = RUNE_INVALID
    ∧ (promptputchar promptFresh 0xC3).1 ≠ RUNE_INCOMPLETE
    ∧ (promptputchar promptFresh 0xC3).2.text = [RUNE_INVALID]
    ∧ (promptputchar (promptputchar promptFresh 0xC3).2 0xA9).2.text
        = [RUNE_INVALID, RUNE_INVALID]
    ∧ utfdecode [0xC3, 0xA9] = (0xE9, 2) := by decide

/-- C2 (code bug): backspace on an active prompt holding the query "ab"
(two printable codepoints, display column 2) subtracts
`printwidth(--p->len) = printwidth(1) = 2` — rune 1 is a control
character — rather than the print width 1 of the removed codepoint `'b'`,
leaving column 0 where the specified behaviour leaves column 1. -/
theorem uipromptkey_backspace_code_bug :
    (uipromptkey 80 promptAB KEY_BACKSPACE).text = [97]
    ∧ (uipromptkey 80 promptAB KEY_BACKSPACE).col = 0
    ∧ printwidth 98 = 1
    ∧ sizetSub 2 (printwidth 98) = 1 := by decide

/-- `struct Buffer` from src/spg.c: the materialized lines (each stored at
its full capacity `linecap`, unused trailing slots holding `RUNE_EOF`) and
the per-line capacity.  `len` is `lines.length`; the geometric growth of
the backing array (`cap`, `bufgrow`) has no observable effect and is
dropped. -/
structure Buffer where
  lines : List (List Int)
  linecap : Nat
deriving Repr, DecidableEq

/-- `bufnew` from src/spg.c: empty buffer with `linecap = width + 2`. -/
def bufnew (width : Nat) : Buffer := { lines := [], linecap := width + 2 }

/-- A line of capacity `cap` holding `content`, the unused trailing slots
zero-filled with the end-of-line sentinel, as `bufnewline` lays lines out. -/
def mkline (cap : Nat) (content : List Int) : List Int :=
  content ++ List.replicate (cap - content.length) RUNE_EOF

/-- The used prefix of a line: the slots before the first end-of-line
sentinel, which is what every per-line scan in src/spg.c traverses. -/
def lineContent (l : List Int) : List Int :=
  l.takeWhile (fun r => decide (r ≠ RUNE_EOF))

/-- `linelen` from src/spg.c: number of runes before the first sentinel. -/
def linelen (l : List Int) : Nat := (lineContent l).length

/-- Reading a slot of the buffer, `buf->lines[row][col]`; out-of-range
reads (which the verified well-formedness below keeps unreachable) default
to the sentinel. -/
def slot (B : Buffer) (row col : Nat) : Int :=
  (B.lines.getD row []).getD col RUNE_EOF

/-- The `while (len-- > 0)` loop of `buflookingat` from src/spg.c:
compare the needle rune at the cursor, advance the cursor, and hop to the
next row's column 0 whenever the advanced cursor reads the end-of-line
sentinel — returning failure if that hop leaves the materialized lines,
even after the final needle rune. -/
def buflookingatGo (B : Buffer) : List Int → Nat → Nat → Bool
  | [], _, _ => true
  | r :: rs, row, col =>
    if slot B row col ≠ r then false
    else if slot B row (col + 1) = RUNE_EOF then
      if B.lines.length ≤ row + 1 then false
      else buflookingatGo B rs (row + 1) 0
    else buflookingatGo B rs row (col + 1)

/-- `buflookingat` from src/spg.c: bounds guard then the matching loop. -/
def buflookingat (B : Buffer) (s : List Int) (row col : Nat) : Bool :=
  if B.lines.length ≤ row ∨ B.linecap ≤ col then false
  else buflookingatGo B s row col

/-- Specification-side occurrence predicate, following the claim's words:
the needle's codepoints occur consecutively starting at `(row, col)`,
continuing into the next row at column 0 whenever the current row's
end-of-line sentinel is reached mid-match. -/
def specOccurs (B : Buffer) : List Int → Nat → Nat → Bool
  | [], _, _ => true
  | r :: rs, row, col =>
    if B.lines.length ≤ row then false
    else if linelen (B.lines.getD row []) ≤ col then false
    else if (B.lines.getD row []).getD col RUNE_EOF ≠ r then false
    else if col + 1 < linelen (B.lines.getD row []) then
      specOccurs B rs row (col + 1)
    else specOccurs B rs (row + 1) 0

/-- Specification-side end condition: the cursor position one past the
last matched codepoint still lies within the materialized lines (the final
row hop, when the last codepoint sits at its row's end, must not leave the
buffer). -/
def specEndOk (B : Buffer) : List Int → Nat → Nat → Bool
  | [], _, _ => true
  | [_], row, col =>
    if col + 1 < linelen (B.lines.getD row []) then true
    else decide (row + 1 < B.lines.length)
  | _ :: rs, row, col =>
    if col + 1 < linelen (B.lines.getD row []) then specEndOk B rs row (col + 1)
    else specEndOk B rs (row + 1) 0

/-- A well-formed line: stored at full capacity, with its content followed
by sentinel padding and at least the last capacity slot holding the
sentinel. -/
def lineWF (cap : Nat) (l : List Int) : Prop :=
  l.length = cap ∧ linelen l < cap ∧
    l = lineContent l ++ List.replicate (cap - linelen l) RUNE_EOF

/-- A well-formed buffer: positive usable capacity and well-formed lines. -/
def bufWF (B : Buffer) : Prop :=
  2 ≤ B.linecap ∧ ∀ l ∈ B.lines, lineWF B.linecap l

instance (cap : Nat) (l : List Int) : Decidable (lineWF cap l) := by
  unfold lineWF
  infer_instance

instance (B : Buffer) : Decidable (bufWF B) := by
  unfold bufWF
  infer_instance

/-- Slots before the first sentinel hold the content, which is
sentinel-free. -/
theorem lineWF_getD_lt (cap : Nat) (l : List Int) (h : lineWF cap l)
    (col : Nat) (hcol : col < linelen l) :
    l.getD col RUNE_EOF = (lineContent l).getD col RUNE_EOF ∧
      l.getD col RUNE_EOF ≠ RUNE_EOF := by
  obtain ⟨hlen, hlt, heq⟩ := h
  constructor
  · conv_lhs => rw [heq]
    exact List.getD_append _ _ _ _ hcol
  · conv_lhs => rw [heq]
    rw [List.getD_append _ _ _ _ hcol]
    have hmem : (lineContent l).get ⟨col, hcol⟩ ∈ lineContent l :=
      List.get_mem _ _ _
    have := List.mem_takeWhile_imp (p := fun r => decide (r ≠ RUNE_EOF))
      (l := l) hmem
    simp only [decide_eq_true_eq] at this
    rw [List.getD_eq_getElem _ _ hcol]
    rwa [List.get_eq_getElem] at this

/-- Slots at or past the first sentinel read the sentinel. -/
theorem lineWF_getD_ge (cap : Nat) (l : List Int) (h : lineWF cap l)
    (col : Nat) (hcol : linelen l ≤ col) :
    l.getD col RUNE_EOF = RUNE_EOF := by
  obtain ⟨hlen, hlt, heq⟩ := h
  conv_lhs => rw [heq]
  rw [List.getD_append_right _ _ _ _ hcol, List.getD_eq_getElem?_getD]
  exact List.getElem?_getD_replicate_default_eq _ _ _

/-- Rows in range are members of the line list. -/
theorem getD_row_mem (B : Buffer) (row : Nat) (h : row < B.lines.length) :
    B.lines.getD row [] ∈ B.lines := by
  rw [List.getD_eq_getElem _ _ h]
  exact List.getElem_mem h

/-- The matching loop of `buflookingat` agrees, on well-formed buffers and
sentinel-free needles, with the conjunction of the occurrence predicate
and the end-position condition. -/
theorem buflookingatGo_spec (B : Buffer) (hwf : bufWF B) :
    ∀ (s : List Int) (row col : Nat), (∀ r ∈ s, 0 ≤ r) →
      row < B.lines.length → col < B.linecap →
      buflookingatGo B s row col
        = (specOccurs B s row col && specEndOk B s row col) := by
  intro s
  induction s with
  | nil =>
    intro row col _ _ _
    simp [buflookingatGo, specOccurs, specEndOk]
  | cons r rs ih =>
    intro row col hs hrow hcol
    have hwl : lineWF B.linecap (B.lines.getD row []) :=
      hwf.2 _ (getD_row_mem B row hrow)
    have hr0 : 0 ≤ r := hs r (by simp)
    have hnr : ¬B.lines.length ≤ row := Nat.not_le.mpr hrow
    by_cases hc : col < linelen (B.lines.getD row [])
    · obtain ⟨hgetc, hgne⟩ := lineWF_getD_lt _ _ hwl col hc
      by_cases heq : (B.lines.getD row []).getD col RUNE_EOF = r
      · have hslot : slot B row col = r := heq
        have hnne : ¬slot B row col ≠ r := fun hn => hn hslot
        have hOpre : specOccurs B (r :: rs) row col
            = (if col + 1 < linelen (B.lines.getD row []) then
                specOccurs B rs row (col + 1)
              else specOccurs B rs (row + 1) 0) := by
          rw [specOccurs, if_neg hnr, if_neg (Nat.not_le.mpr hc),
            if_neg (fun hn => hn heq)]
        by_cases hc1 : col + 1 < linelen (B.lines.getD row [])
        · obtain ⟨-, hgne1⟩ := lineWF_getD_lt _ _ hwl (col + 1) hc1
          have hslot1 : ¬slot B row (col + 1) = RUNE_EOF := hgne1
          have hgo : buflookingatGo B (r :: rs) row col
              = buflookingatGo B rs row (col + 1) := by
            rw [buflookingatGo, if_neg hnne, if_neg hslot1]
          have hcap1 : col + 1 < B.linecap := Nat.lt_trans hc1 hwl.2.1
          cases rs with
          | nil =>
            rw [hgo, hOpre, if_pos hc1]
            have hE0 : specEndOk B [r] row col
                = (if col + 1 < linelen (B.lines.getD row []) then true
                  else decide (row + 1 < B.lines.length)) := rfl
            rw [hE0, if_pos hc1]
            simp [buflookingatGo, specOccurs]
          | cons r2 rs2 =>
            have hE0 : specEndOk B (r :: r2 :: rs2) row col
                = (if col + 1 < linelen (B.lines.getD row []) then
                    specEndOk B (r2 :: rs2) row (col + 1)
                  else specEndOk B (r2 :: rs2) (row + 1) 0) := rfl
            rw [hgo, hOpre, if_pos hc1, hE0, if_pos hc1]
            exact ih row (col + 1) (fun x hx => hs x (by simp [hx])) hrow hcap1
        · have hEOF1 : (B.lines.getD row []).getD (col + 1) RUNE_EOF = RUNE_EOF :=
            lineWF_getD_ge _ _ hwl (col + 1) (Nat.le_of_not_lt hc1)
          have hslot1 : slot B row (col + 1) = RUNE_EOF := hEOF1
          have hgo : buflookingatGo B (r :: rs) row col
              = (if B.lines.length ≤ row + 1 then false
                else buflookingatGo B rs (row + 1) 0) := by
            rw [buflookingatGo, if_neg hnne, if_pos hslot1]
          cases rs with
          | nil =>
            have hE0 : specEndOk B [r] row col
                = (if col + 1 < linelen (B.lines.getD row []) then true
                  else decide (row + 1 < B.lines.length)) := rfl
            rw [hgo, hOpre, if_neg hc1, hE0, if_neg hc1]
            by_cases hrow1 : B.lines.length ≤ row + 1
            · rw [if_pos hrow1]
              simp [specOccurs, Nat.not_lt.mpr hrow1]
            · rw [if_neg hrow1]
              simp [buflookingatGo, specOccurs, Nat.lt_of_not_le hrow1]
          | cons r2 rs2 =>
            have hE0 : specEndOk B (r :: r2 :: rs2) row col
                = (if col + 1 < linelen (B.lines.getD row []) then
                    specEndOk B (r2 :: rs2) row (col + 1)
                  else specEndOk B (r2 :: rs2) (row + 1) 0) := rfl
            rw [hgo, hOpre, if_neg hc1, hE0, if_neg hc1]
            by_cases hrow1 : B.lines.length ≤ row + 1
            · rw [if_pos hrow1]
              have : specOccurs B (r2 :: rs2) (row + 1) 0 = false := by
                rw [specOccurs, if_pos hrow1]
              rw [this]
              simp
            · rw [if_neg hrow1]
              exact ih (row + 1) 0 (fun x hx => hs x (by simp [hx]))
                (Nat.lt_of_not_le hrow1) (by omega)
      · have hne2 : slot B row col ≠ r := heq
        have hgo : buflookingatGo B (r :: rs) row col = false := by
          rw [buflookingatGo, if_pos hne2]
        have hO : specOccurs B (r :: rs) row col = false := by
          rw [specOccurs, if_neg hnr, if_neg (Nat.not_le.mpr hc), if_pos heq]
        rw [hgo, hO]
        simp
    · have hEOF : (B.lines.getD row []).getD col RUNE_EOF = RUNE_EOF :=
        lineWF_getD_ge _ _ hwl col (Nat.le_of_not_lt hc)
      have hne : slot B row col ≠ r := by
        show (B.lines.getD row []).getD col RUNE_EOF ≠ r
        rw [hEOF]
        unfold RUNE_EOF
        omega
      have hgo : buflookingatGo B (r :: rs) row col = false := by
        rw [buflookingatGo, if_pos hne]
      have hO : specOccurs B (r :: rs) row col = false := by
        rw [specOccurs, if_neg hnr, if_pos (Nat.le_of_not_lt hc)]
      rw [hgo, hO]
      simp

/-- Two materialized lines "ab", "cd" at capacity 4 (width 2). -/
def crossB : Buffer :=
  ⟨[[97, 98, RUNE_EOF, RUNE_EOF], [99, 100, RUNE_EOF, RUNE_EOF]], 4⟩

/-- One materialized line "c" at capacity 3 (width 1). -/
def endB : Buffer := ⟨[[99, RUNE_EOF, RUNE_EOF]], 3⟩

/-- C3 (amended): on a well-formed buffer, for a sentinel-free needle and
a start position inside the materialized buffer, `buflookingat` matches
exactly when the needle's codepoints occur consecutively from `(row, col)`
— hopping to the next row's column 0 when the end-of-line sentinel is
reached — AND the cursor position one past the last matched codepoint
still lies within the materialized lines; and a needle spanning exactly
one line boundary is found. -/
theorem buflookingat_spec :
    (∀ (B : Buffer) (s : List Int) (row col : Nat), bufWF B →
      (∀ r ∈ s, 0 ≤ r) → row < B.lines.length → col < B.linecap →
      buflookingat B s row col
        = (specOccurs B s row col && specEndOk B s row col))
    ∧ buflookingat crossB [98, 99] 0 1 = true := by
  constructor
  · intro B s row col hwf hs hrow hcol
    rw [buflookingat, if_neg (by push_neg; omega)]
    exact buflookingatGo_spec B hwf s row col hs hrow hcol
  · decide

/-- Witness for the amended C3 at the concrete cross-line buffer. -/
theorem buflookingat_spec_witness :
    buflookingat crossB [98, 99] 0 1
      = (specOccurs crossB [98, 99] 0 1 && specEndOk crossB [98, 99] 0 1) :=
  buflookingat_spec.1 crossB [98, 99] 0 1 (by decide) (by decide) (by decide)
    (by decide)

/-- C3 counterexample: the needle "c" occurs at `(0, 0)` of a well-formed
one-line buffer holding exactly "c" — the match lies entirely within the
materialized lines and does not run past them — yet `buflookingat`
reports no match, because after consuming the final rune it still hops to
the (nonexistent) next row. -/
theorem buflookingat_claim_counterexample :
    specOccurs endB [99] 0 0 = true ∧ bufWF endB ∧ 0 < endB.lines.length ∧
      0 < endB.linecap ∧ buflookingat endB [99] 0 0 = false := by
  refine ⟨by decide, by decide, by decide, by decide, by decide⟩

/-- `struct Input` from src/spg.c: the bytes the underlying stream has not
yet delivered, the sticky `feof`/`ferror` condition, the bounded (≤ 4
byte) lookahead queue, and the single-slot codepoint pushback (`RUNE_EOF`
when empty). -/
structure Input where
  stream : List Nat
  eof : Bool
  buf : List Nat
  unread : Int
deriving Repr, DecidableEq

/-- `inputnew` from src/spg.c, wrapping a stream of bytes. -/
def inputnew (stream : List Nat) : Input :=
  { stream := stream, eof := false, buf := [], unread := RUNE_EOF }

/-- `inputatend` from src/spg.c: lookahead empty, no pushback, and the
stream exhausted or errored. -/
def inputatend (i : Input) : Bool :=
  i.buf.length = 0 && i.unread = RUNE_EOF && i.eof

/-- The refill loop at the top of `inputgetrune` from src/spg.c: pull
bytes until the 4-byte lookahead is full or `fgetc` reports EOF (which
sets the sticky end flag).  The loop transfers `4 - buflen` bytes when the
stream has them; otherwise it transfers what is left and trips the end
flag. -/
def inputfill (i : Input) : Input :=
  let k := 4 - i.buf.length
  { i with buf := i.buf ++ i.stream.take k, stream := i.stream.drop k,
           eof := i.eof || decide (i.stream.length < k) }

/-- `inputungetrune` from src/spg.c. -/
def inputungetrune (i : Input) (r : Int) : Input := { i with unread := r }

/-- `inputgetrune` from src/spg.c: replay the pushback if present,
otherwise refill the lookahead, return `RUNE_EOF` when it stays empty, and
otherwise decode one rune from it, shifting out the consumed bytes. -/
def inputgetrune (i : Input) : Int × Input :=
  if i.unread ≠ RUNE_EOF then
    (i.unread, { i with unread := RUNE_EOF })
  else
    let i2 := inputfill i
    if i2.buf.length = 0 then (RUNE_EOF, i2)
    else
      let dec := utfdecode i2.buf
      (dec.1, { i2 with buf := i2.buf.drop dec.2 })

/-- `struct Window` from src/spg.c. -/
structure Window where
  buf : Buffer
  rows : Nat
  cols : Nat
  row : Nat
deriving Repr, DecidableEq

/-- `winnew` from src/spg.c. -/
def winnew (rows cols : Nat) : Window :=
  { buf := bufnew cols, rows := rows, cols := cols, row := 0 }

/-- The rune loop of `wingetline` from src/spg.c: collect up to
`linecap - 1` runes (the fuel argument), stopping at end of input, at a
rune whose print width would overflow the window width (pushed back), or
just after a newline; tab advances the width budget to the next tab
stop. -/
def wingetlineGo (cols : Nat) : Nat → Input → Nat → List Int × Input
  | 0, inp, _ => ([], inp)
  | k + 1, inp, w =>
    let g := inputgetrune inp
    if g.1 = RUNE_EOF then ([], g.2)
    else if cols < w + printwidth g.1 then ([], inputungetrune g.2 g.1)
    else if g.1 = 10 then ([g.1], g.2)
    else
      let w2 := if g.1 = 9 then nexttabstop w else w + printwidth g.1
      let rest := wingetlineGo cols k g.2 w2
      (g.1 :: rest.1, rest.2)

/-- `wingetline` from src/spg.c: returns `true` for "no more input"
(C return value 1); otherwise appends exactly one new line built from the
decoded runes. -/
def wingetline (w : Window) (inp : Input) : Bool × Window × Input :=
  if inputatend inp then (true, w, inp)
  else
    let g := wingetlineGo w.cols (w.buf.linecap - 1) inp 0
    (false,
     { w with buf := { w.buf with
        lines := w.buf.lines ++ [mkline w.buf.linecap g.1] } },
     g.2)

/-- The `while (win->buf->len < win->rows)` loop of `winfill` from
src/spg.c; returns the window, input, and the number of new lines.  The
fuel `rows - len` is exact because each successful `wingetline` appends
exactly one line. -/
def winfillGo : Nat → Window → Input → Window × Input × Nat
  | 0, w, inp => (w, inp, 0)
  | k + 1, w, inp =>
    if w.buf.lines.length < w.rows then
      let g := wingetline w inp
      if g.1 then (g.2.1, g.2.2, 0)
      else
        let rest := winfillGo k g.2.1 g.2.2
        (rest.1, rest.2.1, rest.2.2 + 1)
    else (w, inp, 0)

/-- `winfill` from src/spg.c: materialize lines until the buffer holds a
screenful or input is exhausted, then advance `row` by the number of new
lines. -/
def winfill (w : Window) (inp : Input) : Window × Input :=
  let f := winfillGo (w.rows - w.buf.lines.length) w inp
  ({ f.1 with row := f.1.row + f.2.2 }, f.2.1)

/-- The materialization loop of `winscrolldown` from src/spg.c; the fuel
`row + n - len` is exact for the same reason as in `winfillGo`. -/
def winscrolldownGo (n : Nat) : Nat → Window → Input → Window × Input
  | 0, w, inp => (w, inp)
  | k + 1, w, inp =>
    if w.buf.lines.length < w.row + n then
      let g := wingetline w inp
      if g.1 then (g.2.1, g.2.2)
      else winscrolldownGo n k g.2.1 g.2.2
    else (w, inp)

/-- `winscrolldown` from src/spg.c: materialize enough lines, then
`row = min(row + n, len)`. -/
def winscrolldown (w : Window) (n : Nat) (inp : Input) : Window × Input :=
  let g := winscrolldownGo n (w.row + n - w.buf.lines.length) w inp
  ({ g.1 with row := min (g.1.row + n) g.1.buf.lines.length }, g.2)

/-- `winscrollup` from src/spg.c: `row = max(0, row - n)`, then if the
result is under the viewport height, reset to `min(rows, len)`. -/
def winscrollup (w : Window) (n : Nat) : Window :=
  let row1 := if w.row < n then 0 else w.row - n
  if row1 < w.rows then { w with row := min w.rows w.buf.lines.length }
  else { w with row := row1 }

/-- `winscrolltop` from src/spg.c. -/
def winscrolltop (w : Window) : Window :=
  { w with row := min w.rows w.buf.lines.length }

/-- The `while (!wingetline(win, in))` drain loop of `winscrollbot` from
src/spg.c, with explicit fuel; `none` means the fuel ran out before
`wingetline` reported end of input. -/
def winscrollbotGo : Nat → Window → Input → Option (Window × Input)
  | 0, _, _ => none
  | k + 1, w, inp =>
    let g := wingetline w inp
    if g.1 then some (g.2.1, g.2.2)
    else winscrollbotGo k g.2.1 g.2.2

/-- `winscrollbot` from src/spg.c: drain the input fully, then
`row = len`. -/
def winscrollbot (fuel : Nat) (w : Window) (inp : Input) :
    Option (Window × Input) :=
  match winscrollbotGo fuel w inp with
  | none => none
  | some (w2, inp2) => some ({ w2 with row := w2.buf.lines.length }, inp2)

/-- The running state of the re-wrapping loop of `bufreflow` from
src/spg.c: the lines created so far (most recent first, each in rune
order), the column budget `c`, the slot index `j` within the current
line, and the pending-line flag. -/
structure WrapSt where
  rev : List (List Int)
  c : Nat
  j : Nat
  needline : Bool
deriving Repr, DecidableEq

/-- Initial re-wrapping state: `needline = 1; c = j = 0`. -/
def wrapInit : WrapSt := { rev := [], c := 0, j := 0, needline := true }

/-- One iteration of the inner loop of `bufreflow` from src/spg.c for a
single rune: start a fresh line when the pending flag is set, when the
print width would overflow `width`, or when the slot index reaches
`linecap - 1 = width + 1`; then write the rune and update the budget
(newline sets the pending flag, tab jumps to the next tab stop). -/
def wrapStep (width : Nat) (st : WrapSt) (r : Int) : WrapSt :=
  let w := printwidth r
  if st.needline ∨ width < st.c + w ∨ width + 1 ≤ st.j then
    { rev := [r] :: st.rev,
      c := if r = 10 then 0 else if r = 9 then nexttabstop 0 else w,
      j := 1,
      needline := decide (r = 10) }
  else
    { rev := (st.rev.headD [] ++ [r]) :: st.rev.tail,
      c := if r = 10 then st.c
           else if r = 9 then nexttabstop st.c
           else st.c + w,
      j := st.j + 1,
      needline := decide (r = 10) }

/-- The inner `for (oldl = buf->lines[i]; *oldl != RUNE_EOF; oldl++)` loop
of `bufreflow`: feed one old line's content through the wrap machine. -/
def reflowLine (width : Nat) (st : WrapSt) (l : List Int) : WrapSt :=
  (lineContent l).foldl (wrapStep width) st

/-- The full two-level loop of `bufreflow` over a list of old lines. -/
def reflowSt (width : Nat) (lines : List (List Int)) : WrapSt :=
  lines.foldl (reflowLine width) wrapInit

/-- `bufreflow` from src/spg.c: re-wrap all content at `width` into a new
buffer of capacity `width + 2`, translating the tracked row.  The C code
records `*newrow = new->len` when the old-line index `i` equals `row - 1`
(for `row` in `[1, len]` this fires after consuming exactly `row` old
lines), and after the loop when `i <= row - 1`; since `row` is `size_t`,
`row = 0` makes `row - 1` wrap to `SIZE_MAX`, so only the post-loop
assignment fires and `newrow` becomes the new length — the same value the
post-loop assignment gives for any `row > len`. -/
def bufreflow (B : Buffer) (width : Nat) (row : Nat) : Buffer × Nat :=
  let full := reflowSt width B.lines
  let newrow :=
    if 1 ≤ row ∧ row ≤ B.lines.length then
      (reflowSt width (B.lines.take row)).rev.length
    else full.rev.length
  ({ lines := full.rev.reverse.map (mkline (width + 2)), linecap := width + 2 },
   newrow)

/-- `winresize` from src/spg.c: set the new height, reflow the buffer at
the new width translating `row`, then refill.  (The source never updates
`win->cols`; the model preserves that.) -/
def winresize (w : Window) (rows cols : Nat) (inp : Input) : Window × Input :=
  let rf := bufreflow w.buf cols w.row
  winfill { w with rows := rows, buf := rf.1, row := rf.2 } inp

/-- Index of the first end-of-line sentinel at or after `start`. -/
def firstEOFfrom (l : List Int) (start : Nat) : Nat :=
  start + ((l.drop start).takeWhile (fun r => decide (r ≠ RUNE_EOF))).length

/-- `bufsearchforwards` from src/spg.c: scan rows strictly after `row`
in ascending order — within a row, columns ascending from 0 up to the
column before the first sentinel past column 0 (the loop advances to the
next row when `lines[i][++j]` reads the sentinel) — and report the first
row holding a match of the needle. -/
def bufsearchforwards (B : Buffer) (s : List Int) (row : Nat) : Option Nat :=
  if s.length = 0 ∨ B.lines.length ≤ row + 1 then none
  else
    (List.range' (row + 1) (B.lines.length - (row + 1))).findSome? fun i =>
      match (List.range (firstEOFfrom (B.lines.getD i []) 1)).find? (fun j =>
          decide ((B.lines.getD i []).getD j RUNE_EOF = s.headD 0) &&
            buflookingat B s i j) with
      | some _ => some i
      | none => none

/-- `bufsearchbackwards` from src/spg.c: clamp the start row to
`len - 1`, then scan rows strictly below it in descending order — within
a row, columns descending from `linelen` down to 0 — and report the first
row holding a match. -/
def bufsearchbackwards (B : Buffer) (s : List Int) (row : Nat) : Option Nat :=
  if s.length = 0 ∨ B.lines.length = 0 ∨ row = 0 then none
  else
    let row2 := if B.lines.length - 1 ≤ row then B.lines.length - 1 else row
    (List.range row2).reverse.findSome? fun i =>
      match ((List.range (linelen (B.lines.getD i []) + 1)).reverse).find?
          (fun j => decide ((B.lines.getD i []).getD j RUNE_EOF = s.headD 0) &&
            buflookingat B s i j) with
      | some _ => some i
      | none => none

/-- `winsearchbackwards` from src/spg.c: guard degenerate states, search
from one screenful above `row`, and bottom-anchor the match. -/
def winsearchbackwards (w : Window) (s : List Int) : Window :=
  if w.row = 0 ∨ w.buf.lines.length = 0 ∨ w.row ≤ w.rows then w
  else
    match bufsearchbackwards w.buf s (w.row - w.rows) with
    | none => w
    | some found => { w with row := min (found + w.rows) w.buf.lines.length }

/-- The retry loop of `winsearchforwards` from src/spg.c: search, and on
failure note `len - 1`, pull one more line, and retry from there;
returning with the window untouched (beyond the pulled lines) when input
is exhausted.  Fuel-limited because, like the drain of `winscrollbot`,
the pull can fail to make progress on degenerate widths. -/
def winsearchforwardsGo (s : List Int) :
    Nat → Window → Input → Nat → Option (Window × Input)
  | 0, _, _, _ => none
  | fuel + 1, w, inp, curRow =>
    match bufsearchforwards w.buf s curRow with
    | some found => some ({ w with row := found + 1 }, inp)
    | none =>
      let newRow := w.buf.lines.length - 1
      let g := wingetline w inp
      if g.1 then some (g.2.1, g.2.2)
      else winsearchforwardsGo s fuel g.2.1 g.2.2 newRow

/-- `winsearchforwards` from src/spg.c: guard degenerate states, then run
the retry loop from just below the current row; a found match is
top-anchored at `row = match + 1`. -/
def winsearchforwards (s : List Int) (fuel : Nat) (w : Window) (inp : Input) :
    Option (Window × Input) :=
  if w.row = 0 ∨ w.buf.lines.length = 0 then some (w, inp)
  else winsearchforwardsGo s fuel w inp (w.row - 1)

/-- With the input at end, `wingetline` reports end and changes nothing. -/
theorem wingetline_atend (w : Window) (inp : Input)
    (h : inputatend inp = true) : wingetline w inp = (true, w, inp) := by
  rw [wingetline, if_pos h]

/-- With the input at end, the materialization loop of `winscrolldown` is
a no-op. -/
theorem winscrolldownGo_atend (n : Nat) (inp : Input)
    (h : inputatend inp = true) :
    ∀ (fuel : Nat) (w : Window), winscrolldownGo n fuel w inp = (w, inp) := by
  intro fuel
  induction fuel with
  | zero => intro w; rfl
  | succ k ih =>
    intro w
    rw [winscrolldownGo]
    by_cases hc : w.buf.lines.length < w.row + n
    · rw [if_pos hc, wingetline_atend w inp h]
      simp
    · rw [if_neg hc]

/-- A fully materialized two-line buffer of width 5 ("a" and "b"). -/
def stableB : Buffer := ⟨[mkline 7 [97], mkline 7 [98]], 7⟩

/-- A 1-row window over `stableB`, showing only its first line. -/
def c4Win : Window := ⟨stableB, 1, 5, 1⟩

/-- An exhausted input: empty stream, end flag set, nothing queued. -/
def inputDone : Input := ⟨[], true, [], RUNE_EOF⟩

/-- C4 counterexample: on a stable two-line buffer viewed through a
1-row window at `row = 1`, `scrollUp(1)` hits the top clamp (the result
`0` is below the viewport height, so `row` resets to
`min(rows, len) = 1`), and the following `scrollDown(1)` lands at
`row = 2`, not the original `row = 1`, although `n = 1 ≤ row = 1`. -/
theorem scroll_inverse_counterexample :
    inputatend inputDone = true ∧ c4Win.row = 1 ∧ 1 ≤ c4Win.row ∧
      c4Win.row ≤ c4Win.buf.lines.length ∧
      (winscrolldown (winscrollup c4Win 1) 1 inputDone).1.row = 2 := by
  refine ⟨by decide, by decide, by decide, by decide, by decide⟩

/-- C4 (amended): on a stable buffer (input at end), `scrollUp(n)` then
`scrollDown(n)` restores the original `row` whenever `row ≤ len` and the
scroll-up does not hit the top clamp, i.e. `rows ≤ row - n` (in
particular `n ≤ row`). -/
theorem scroll_inverse (w : Window) (inp : Input) (n : Nat)
    (hend : inputatend inp = true) (hrl : w.row ≤ w.buf.lines.length)
    (hn : n ≤ w.row) (hclamp : w.rows ≤ w.row - n) :
    (winscrolldown (winscrollup w n) n inp).1.row = w.row := by
  have hup : winscrollup w n = { w with row := w.row - n } := by
    rw [winscrollup]
    simp only [if_neg (Nat.not_lt.mpr hn)]
    rw [if_neg (Nat.not_lt.mpr hclamp)]
  rw [hup, winscrolldown]
  rw [winscrolldownGo_atend n inp hend]
  simp only []
  show min (w.row - n + n) _ = w.row
  rw [Nat.sub_add_cancel hn]
  exact Nat.min_eq_left hrl

/-- Witness for the amended C4 on a concrete stable window. -/
theorem scroll_inverse_witness :
    (winscrolldown (winscrollup ⟨stableB, 1, 5, 2⟩ 1) 1 inputDone).1.row = 2 :=
  scroll_inverse ⟨stableB, 1, 5, 2⟩ inputDone 1 (by decide) (by decide)
    (by decide) (by decide)

/-- `wingetline` keeps `row`, the geometry, and the line capacity; it
leaves everything unchanged when it reports end of input, and otherwise
appends exactly one line. -/
theorem wingetline_preserve (w : Window) (inp : Input) :
    (wingetline w inp).2.1.row = w.row ∧
    (wingetline w inp).2.1.rows = w.rows ∧
    (wingetline w inp).2.1.cols = w.cols ∧
    (wingetline w inp).2.1.buf.linecap = w.buf.linecap ∧
    ((wingetline w inp).1 = true → (wingetline w inp).2.1 = w ∧
      (wingetline w inp).2.2 = inp) ∧
    ((wingetline w inp).1 = false →
      (wingetline w inp).2.1.buf.lines.length = w.buf.lines.length + 1) := by
  rw [wingetline]
  by_cases h : inputatend inp
  · rw [if_pos h]
    simp
  · rw [if_neg h]
    simp

/-- The fill loop preserves `row` and adds exactly the reported number of
lines. -/
theorem winfillGo_spec : ∀ (fuel : Nat) (w : Window) (inp : Input),
    (winfillGo fuel w inp).1.row = w.row ∧
    (winfillGo fuel w inp).1.buf.lines.length
      = w.buf.lines.length + (winfillGo fuel w inp).2.2 := by
  intro fuel
  induction fuel with
  | zero => intro w inp; exact ⟨rfl, rfl⟩
  | succ k ih =>
    intro w inp
    rw [winfillGo]
    by_cases hc : w.buf.lines.length < w.rows
    · rw [if_pos hc]
      have hp := wingetline_preserve w inp
      by_cases hg : (wingetline w inp).1 = true
      · simp only [hg, if_pos]
        obtain ⟨hw, -⟩ := hp.2.2.2.2.1 hg
        simp [hw]
      · have hg' : (wingetline w inp).1 = false := by
          cases hb : (wingetline w inp).1
          · rfl
          · exact absurd hb hg
        simp only [hg', Bool.false_eq_true, if_neg, ite_false]
        obtain ⟨ihr, ihl⟩ := ih (wingetline w inp).2.1 (wingetline w inp).2.2
        refine ⟨by rw [ihr, hp.1], ?_⟩
        rw [ihl, hp.2.2.2.2.2 hg']
        omega
    · rw [if_neg hc]
      exact ⟨rfl, rfl⟩

/-- `winfill` keeps `row ≤ len`. -/
theorem winfill_row_le (w : Window) (inp : Input)
    (h : w.row ≤ w.buf.lines.length) :
    (winfill w inp).1.row ≤ (winfill w inp).1.buf.lines.length := by
  rw [winfill]
  obtain ⟨hr, hl⟩ := winfillGo_spec (w.rows - w.buf.lines.length) w inp
  simp only []
  rw [hr, hl]
  omega

/-- `bufreflow` never translates the tracked row past the new length. -/
theorem bufreflow_row_le (B : Buffer) (width row : Nat) :
    (bufreflow B width row).2 ≤ (bufreflow B width row).1.lines.length := by
  have mono1 : ∀ (st : WrapSt) (r : Int),
      st.rev.length ≤ (wrapStep width st r).rev.length := by
    intro st r
    rw [wrapStep]
    by_cases h : st.needline = true ∨ width < st.c + printwidth r ∨
        width + 1 ≤ st.j
    · rw [if_pos h]
      simp
    · rw [if_neg h]
      cases hrev : st.rev <;> simp [hrev]
  have mono2 : ∀ (s : List Int) (st : WrapSt),
      st.rev.length ≤ (s.foldl (wrapStep width) st).rev.length := by
    intro s
    induction s with
    | nil => intro st; exact Nat.le_refl _
    | cons r rs ih =>
      intro st
      exact Nat.le_trans (mono1 st r) (ih (wrapStep width st r))
  have mono3 : ∀ (ls : List (List Int)) (st : WrapSt),
      st.rev.length ≤ (ls.foldl (reflowLine width) st).rev.length := by
    intro ls
    induction ls with
    | nil => intro st; exact Nat.le_refl _
    | cons l rest ih =>
      intro st
      exact Nat.le_trans (mono2 (lineContent l) st) (ih (reflowLine width st l))
  rw [bufreflow]
  simp only [List.length_map, List.length_reverse]
  by_cases h : 1 ≤ row ∧ row ≤ B.lines.length
  · rw [if_pos h]
    have hsplit : reflowSt width B.lines
        = (B.lines.drop row).foldl (reflowLine width)
            (reflowSt width (B.lines.take row)) := by
      rw [reflowSt, reflowSt, ← List.foldl_append, List.take_append_drop]
    rw [hsplit]
    exact mono3 _ _
  · rw [if_neg h]

/-- A forward search hit names a materialized row. -/
theorem bufsearchforwards_lt (B : Buffer) (s : List Int) (row found : Nat)
    (h : bufsearchforwards B s row = some found) : found < B.lines.length := by
  rw [bufsearchforwards] at h
  by_cases hg : s.length = 0 ∨ B.lines.length ≤ row + 1
  · rw [if_pos hg] at h
    exact absurd h (by simp)
  · rw [if_neg hg] at h
    obtain ⟨a, ha, hfa⟩ := List.exists_of_findSome?_eq_some h
    have haf : a = found := by
      by_cases hm : ∃ j, ((List.range
          (firstEOFfrom (B.lines.getD a []) 1)).find? (fun j =>
            decide ((B.lines.getD a []).getD j RUNE_EOF = s.headD 0) &&
              buflookingat B s a j)) = some j
      · obtain ⟨j, hj⟩ := hm
        rw [hj] at hfa
        simpa using hfa
      · push_neg at hm
        cases hfind : (List.range (firstEOFfrom (B.lines.getD a []) 1)).find?
            (fun j => decide ((B.lines.getD a []).getD j RUNE_EOF = s.headD 0)
              && buflookingat B s a j) with
        | none =>
          rw [hfind] at hfa
          exact absurd hfa (by simp)
        | some j => exact absurd hfind (hm j)
    push_neg at hg
    rw [List.mem_range'_1] at ha
    omega

/-- The forward-search retry loop preserves `row ≤ len`. -/
theorem winsearchforwardsGo_row_le (s : List Int) :
    ∀ (fuel : Nat) (w : Window) (inp : Input) (cur : Nat)
      (w2 : Window) (inp2 : Input), w.row ≤ w.buf.lines.length →
      winsearchforwardsGo s fuel w inp cur = some (w2, inp2) →
      w2.row ≤ w2.buf.lines.length := by
  intro fuel
  induction fuel with
  | zero => intro w inp cur w2 inp2 _ h; exact absurd h (by simp [winsearchforwardsGo])
  | succ k ih =>
    intro w inp cur w2 inp2 hwr h
    rw [winsearchforwardsGo] at h
    cases hs : bufsearchforwards w.buf s cur with
    | some found =>
      rw [hs] at h
      simp only [Option.some.injEq, Prod.mk.injEq] at h
      obtain ⟨hw2, -⟩ := h
      rw [← hw2]
      simpa using bufsearchforwards_lt w.buf s cur found hs
    | none =>
      rw [hs] at h
      simp only [] at h
      have hp := wingetline_preserve w inp
      by_cases hg : (wingetline w inp).1 = true
      · rw [if_pos hg] at h
        simp only [Option.some.injEq, Prod.mk.injEq] at h
        obtain ⟨hw2, -⟩ := h
        rw [← hw2, (hp.2.2.2.2.1 hg).1]
        exact hwr
      · have hg' : (wingetline w inp).1 = false := by
          cases hb : (wingetline w inp).1
          · rfl
          · exact absurd hb hg
        rw [if_neg (by rw [hg']; simp)] at h
        refine ih (wingetline w inp).2.1 (wingetline w inp).2.2 _ w2 inp2 ?_ h
        rw [hp.1, hp.2.2.2.2.2 hg']
        omega

/-- C9: every window operation — fill, the four scrolls, resize, and both
searches — leaves the row cursor within `[0, len]`: whenever it holds (or
vacuously, where no hypothesis is needed), `row ≤ len` holds of the
resulting window. -/
theorem window_row_invariant :
    (∀ (w : Window) (inp : Input), w.row ≤ w.buf.lines.length →
      (winfill w inp).1.row ≤ (winfill w inp).1.buf.lines.length)
    ∧ (∀ (w : Window) (n : Nat) (inp : Input),
      (winscrolldown w n inp).1.row
        ≤ (winscrolldown w n inp).1.buf.lines.length)
    ∧ (∀ (w : Window) (n : Nat), w.row ≤ w.buf.lines.length →
      (winscrollup w n).row ≤ (winscrollup w n).buf.lines.length)
    ∧ (∀ w : Window,
      (winscrolltop w).row ≤ (winscrolltop w).buf.lines.length)
    ∧ (∀ (fuel : Nat) (w : Window) (inp : Input) (w2 : Window) (inp2 : Input),
      winscrollbot fuel w inp = some (w2, inp2) →
      w2.row ≤ w2.buf.lines.length)
    ∧ (∀ (w : Window) (rows cols : Nat) (inp : Input),
      (winresize w rows cols inp).1.row
        ≤ (winresize w rows cols inp).1.buf.lines.length)
    ∧ (∀ (w : Window) (s : List Int), w.row ≤ w.buf.lines.length →
      (winsearchbackwards w s).row ≤ (winsearchbackwards w s).buf.lines.length)
    ∧ (∀ (s : List Int) (fuel : Nat) (w : Window) (inp : Input)
        (w2 : Window) (inp2 : Input), w.row ≤ w.buf.lines.length →
      winsearchforwards s fuel w inp = some (w2, inp2) →
      w2.row ≤ w2.buf.lines.length) := by
  refine ⟨winfill_row_le, ?_, ?_, ?_, ?_, ?_, ?_, ?_⟩
  · intro w n inp
    simp only [winscrolldown]
    exact Nat.min_le_right _ _
  · intro w n h
    simp only [winscrollup]
    by_cases hc : (if w.row < n then 0 else w.row - n) < w.rows
    · rw [if_pos hc]
      exact Nat.min_le_right _ _
    · rw [if_neg hc]
      by_cases hrn : w.row < n
      · simp [hrn]
      · simp only [if_neg hrn]
        omega
  · intro w
    exact Nat.min_le_right _ _
  · intro fuel w inp w2 inp2 h
    rw [winscrollbot] at h
    cases hgo : winscrollbotGo fuel w inp with
    | none =>
      rw [hgo] at h
      exact absurd h (by simp)
    | some p =>
      rw [hgo] at h
      simp only [Option.some.injEq, Prod.mk.injEq] at h
      obtain ⟨hw2, -⟩ := h
      rw [← hw2]
  · intro w rows cols inp
    rw [winresize]
    exact winfill_row_le _ inp (bufreflow_row_le w.buf cols w.row)
  · intro w s h
    rw [winsearchbackwards]
    by_cases hg : w.row = 0 ∨ w.buf.lines.length = 0 ∨ w.row ≤ w.rows
    · rw [if_pos hg]
      exact h
    · rw [if_neg hg]
      cases hs : bufsearchbackwards w.buf s (w.row - w.rows) with
      | none => exact h
      | some found =>
        simp only []
        exact Nat.min_le_right _ _
  · intro s fuel w inp w2 inp2 h hsf
    rw [winsearchforwards] at hsf
    by_cases hg : w.row = 0 ∨ w.buf.lines.length = 0
    · rw [if_pos hg] at hsf
      simp only [Option.some.injEq, Prod.mk.injEq] at hsf
      obtain ⟨hw2, -⟩ := hsf
      rw [← hw2]
      exact h
    · rw [if_neg hg] at hsf
      exact winsearchforwardsGo_row_le s fuel w inp (w.row - 1) w2 inp2 h hsf

/-- Witness for C9: the scroll-up conjunct at a concrete window. -/
theorem window_row_invariant_witness :
    (winscrollup c4Win 1).row ≤ (winscrollup c4Win 1).buf.lines.length :=
  window_row_invariant.2.2.1 c4Win 1 (by decide)

/-- The wrap loop of `bufreflow` viewed one output line at a time: from
budget `c` and slot index `j`, collect runes onto the current line until a
rune would overflow the width or the slot limit (it stays in the
remainder), until a newline is written, or until the stream ends.
Returns (runes added to the current line, remaining stream). -/
def wrapGo (width : Nat) : List Int → Nat → Nat → List Int × List Int
  | [], _, _ => ([], [])
  | r :: rs, c, j =>
    if width < c + printwidth r ∨ width + 1 ≤ j then ([], r :: rs)
    else if r = 10 then ([r], rs)
    else
      let g := wrapGo width rs (if r = 9 then nexttabstop c else
        c + printwidth r) (j + 1)
      (r :: g.1, g.2)

/-- One full output line of the wrap: the pending-line break writes the
first rune unconditionally with `c = j = 0`, then `wrapGo` fills the
rest. -/
def line1 (width : Nat) : List Int → List Int × List Int
  | [] => ([], [])
  | r :: rs =>
    if r = 10 then ([r], rs)
    else
      let g := wrapGo width rs (if r = 9 then nexttabstop 0 else
        printwidth r) 1
      (r :: g.1, g.2)

/-- `wrapGo` splits its input: consumed runes followed by the rest. -/
theorem wrapGo_split (width : Nat) :
    ∀ (s : List Int) (c j : Nat),
      (wrapGo width s c j).1 ++ (wrapGo width s c j).2 = s := by
  intro s
  induction s with
  | nil => intro c j; rfl
  | cons r rs ih =>
    intro c j
    rw [wrapGo]
    by_cases hb : width < c + printwidth r ∨ width + 1 ≤ j
    · rw [if_pos hb]
      rfl
    · rw [if_neg hb]
      by_cases hn : r = 10
      · rw [if_pos hn]
        simp [hn]
      · rw [if_neg hn]
        simp only [List.cons_append, List.cons.injEq, true_and]
        exact ih _ _

/-- `line1` splits its input, and consumes at least one rune. -/
theorem line1_split (width : Nat) (r : Int) (rs : List Int) :
    (line1 width (r :: rs)).1 ++ (line1 width (r :: rs)).2 = r :: rs ∧
      (line1 width (r :: rs)).1 ≠ [] := by
  rw [line1]
  by_cases hn : r = 10
  · rw [if_pos hn]
    simp [hn]
  · rw [if_neg hn]
    simp only [List.cons_append, List.cons.injEq, true_and, ne_eq,
      List.cons_ne_nil, not_false_eq_true, and_true]
    exact wrapGo_split width rs _ _

/-- The remainder `line1` leaves is strictly shorter than its input. -/
theorem line1_lt (width : Nat) (r : Int) (rs : List Int) :
    (line1 width (r :: rs)).2.length < (r :: rs).length := by
  obtain ⟨hsplit, hne⟩ := line1_split width r rs
  have := congrArg List.length hsplit
  rw [List.length_append] at this
  have : (line1 width (r :: rs)).1.length ≠ 0 := by
    intro h0
    exact hne (List.length_eq_zero.mp h0)
  omega

/-- The full re-wrap: repeatedly peel off one output line. -/
def rewrap (width : Nat) : List Int → List (List Int)
  | [] => []
  | r :: rs =>
    (line1 width (r :: rs)).1 :: rewrap width (line1 width (r :: rs)).2
termination_by s => s.length
decreasing_by exact line1_lt width r rs

/-- Flattening the re-wrapped lines recovers the stream. -/
theorem rewrap_flatten (width : Nat) :
    ∀ s : List Int, (rewrap width s).flatten = s := by
  have key : ∀ (n : Nat) (s : List Int), s.length ≤ n →
      (rewrap width s).flatten = s := by
    intro n
    induction n with
    | zero =>
      intro s h
      have hnil : s = [] := List.length_eq_zero.mp (Nat.le_zero.mp h)
      subst hnil
      rw [rewrap]
      rfl
    | succ k ih =>
      intro s h
      cases s with
      | nil => rw [rewrap]; rfl
      | cons r rs =>
        rw [rewrap, List.flatten_cons, ih _ (by
          have := line1_lt width r rs
          simp only [List.length_cons] at h this
          omega)]
        exact (line1_split width r rs).1
  intro s
  exact key s.length s (Nat.le_refl _)

/-- `wrapGo` leaves at most its input behind. -/
theorem wrapGo_rest_le (width : Nat) (s : List Int) (c j : Nat) :
    (wrapGo width s c j).2.length ≤ s.length := by
  have h := congrArg List.length (wrapGo_split width s c j)
  rw [List.length_append] at h
  omega

/-- `wrapStep` on a state that triggers a line break. -/
theorem wrapStep_break (width : Nat) (rev : List (List Int)) (c j : Nat)
    (nl : Bool) (r : Int)
    (h : nl = true ∨ width < c + printwidth r ∨ width + 1 ≤ j) :
    wrapStep width ⟨rev, c, j, nl⟩ r
      = ⟨[r] :: rev,
         if r = 10 then 0 else if r = 9 then nexttabstop 0 else printwidth r,
         1, decide (r = 10)⟩ := by
  rw [wrapStep, if_pos h]

/-- `wrapStep` on a state that extends the current line. -/
theorem wrapStep_ext (width : Nat) (rev : List (List Int)) (c j : Nat)
    (nl : Bool) (r : Int)
    (h : ¬(nl = true ∨ width < c + printwidth r ∨ width + 1 ≤ j)) :
    wrapStep width ⟨rev, c, j, nl⟩ r
      = ⟨(rev.headD [] ++ [r]) :: rev.tail,
         if r = 10 then c else if r = 9 then nexttabstop c
           else c + printwidth r,
         j + 1, decide (r = 10)⟩ := by
  rw [wrapStep, if_neg h]

/-- All wrap-machine lines below the most recent one are passengers: a
run started with extra lines under the head produces the same new lines,
budget, and flag as a run started with the head alone. -/
theorem foldl_tail (width : Nat) :
    ∀ (s : List Int) (c j : Nat) (nl : Bool) (h : List Int)
      (t : List (List Int)),
      s.foldl (wrapStep width) ⟨h :: t, c, j, nl⟩
        = ⟨(s.foldl (wrapStep width) ⟨[h], c, j, nl⟩).rev ++ t,
           (s.foldl (wrapStep width) ⟨[h], c, j, nl⟩).c,
           (s.foldl (wrapStep width) ⟨[h], c, j, nl⟩).j,
           (s.foldl (wrapStep width) ⟨[h], c, j, nl⟩).needline⟩ := by
  intro s
  induction s with
  | nil =>
    intro c j nl h t
    simp
  | cons r rs ih =>
    intro c j nl h t
    rw [List.foldl_cons, List.foldl_cons]
    by_cases hb : nl = true ∨ width < c + printwidth r ∨ width + 1 ≤ j
    · rw [wrapStep_break width (h :: t) c j nl r hb,
        wrapStep_break width [h] c j nl r hb]
      rw [ih _ _ _ [r] (h :: t), ih _ _ _ [r] [h]]
      simp [List.append_assoc]
    · rw [wrapStep_ext width (h :: t) c j nl r hb,
        wrapStep_ext width [h] c j nl r hb]
      simp only [List.headD_cons, List.tail_cons]
      exact ih _ _ _ (h ++ [r]) t

/-- From a pending-line state, the budget and slot index are irrelevant
and the already-built lines ride along untouched. -/
theorem foldl_fresh (width : Nat) :
    ∀ (s : List Int) (c j : Nat) (rev : List (List Int)),
      ((s.foldl (wrapStep width) ⟨rev, c, j, true⟩).rev
        = (s.foldl (wrapStep width) wrapInit).rev ++ rev)
      ∧ (s ≠ [] →
        (s.foldl (wrapStep width) ⟨rev, c, j, true⟩).c
            = (s.foldl (wrapStep width) wrapInit).c
        ∧ (s.foldl (wrapStep width) ⟨rev, c, j, true⟩).j
            = (s.foldl (wrapStep width) wrapInit).j
        ∧ (s.foldl (wrapStep width) ⟨rev, c, j, true⟩).needline
            = (s.foldl (wrapStep width) wrapInit).needline) := by
  intro s c j rev
  cases s with
  | nil =>
    refine ⟨by simp [wrapInit], fun h => absurd rfl h⟩
  | cons r rs =>
    rw [List.foldl_cons, List.foldl_cons,
      show wrapInit = (⟨[], 0, 0, true⟩ : WrapSt) from rfl,
      wrapStep_break width rev c j true r (Or.inl rfl),
      wrapStep_break width [] 0 0 true r (Or.inl rfl),
      foldl_tail width rs _ _ _ [r] rev]
    exact ⟨rfl, fun _ => ⟨rfl, rfl, rfl⟩⟩

/-- The first rune always breaks from the initial state. -/
theorem foldl_init_cons (width : Nat) (r : Int) (rs : List Int) :
    (r :: rs).foldl (wrapStep width) wrapInit
      = rs.foldl (wrapStep width)
          ⟨[[r]],
           if r = 10 then 0 else if r = 9 then nexttabstop 0
             else printwidth r,
           1, decide (r = 10)⟩ := by
  rw [List.foldl_cons, show wrapInit = (⟨[], 0, 0, true⟩ : WrapSt) from rfl,
    wrapStep_break width [] 0 0 true r (Or.inl rfl)]

/-- One output line of the wrap machine: from a non-pending state, the
machine extends the head with exactly the runes `wrapGo` collects and
then continues on the remainder as if freshly started, with the finished
lines riding along. -/
theorem foldl_line (width : Nat) :
    ∀ (s : List Int) (c j : Nat) (h : List Int) (t : List (List Int)),
      (s.foldl (wrapStep width) ⟨h :: t, c, j, false⟩).rev
        = ((wrapGo width s c j).2.foldl (wrapStep width) wrapInit).rev
            ++ ((h ++ (wrapGo width s c j).1) :: t) := by
  intro s
  induction s with
  | nil =>
    intro c j h t
    simp [wrapGo, wrapInit]
  | cons r rs ih =>
    intro c j h t
    by_cases hb : width < c + printwidth r ∨ width + 1 ≤ j
    · have hgo : wrapGo width (r :: rs) c j = ([], r :: rs) := by
        rw [wrapGo, if_pos hb]
      simp only [hgo]
      rw [List.foldl_cons,
        wrapStep_break width (h :: t) c j false r (Or.inr hb),
        foldl_tail width rs _ _ _ [r] (h :: t), foldl_init_cons width r rs]
      simp
    · have hb' : ¬((false : Bool) = true ∨ width < c + printwidth r ∨
          width + 1 ≤ j) := by
        simp only [Bool.false_eq_true, false_or]
        exact hb
      by_cases hn : r = 10
      · have hgo : wrapGo width (r :: rs) c j = ([r], rs) := by
          rw [wrapGo, if_neg hb, if_pos hn]
        simp only [hgo]
        rw [List.foldl_cons, wrapStep_ext width (h :: t) c j false r hb']
        simp only [List.headD_cons, List.tail_cons, if_pos hn,
          decide_eq_true hn]
        exact (foldl_fresh width rs c (j + 1) ((h ++ [r]) :: t)).1
      · have hgo : wrapGo width (r :: rs) c j
            = (r :: (wrapGo width rs (if r = 9 then nexttabstop c
                else c + printwidth r) (j + 1)).1,
               (wrapGo width rs (if r = 9 then nexttabstop c
                else c + printwidth r) (j + 1)).2) := by
          rw [wrapGo, if_neg hb, if_neg hn]
        simp only [hgo]
        rw [List.foldl_cons, wrapStep_ext width (h :: t) c j false r hb']
        simp only [List.headD_cons, List.tail_cons, if_neg hn,
          decide_eq_false hn]
        rw [ih _ (j + 1) (h ++ [r]) t]
        simp [List.append_assoc]

/-- The wrap machine of `bufreflow` computes exactly the line-at-a-time
re-wrap `rewrap`. -/
theorem wrapAll_eq_rewrap (width : Nat) :
    ∀ s : List Int,
      (s.foldl (wrapStep width) wrapInit).rev.reverse = rewrap width s := by
  have key : ∀ (n : Nat) (s : List Int), s.length ≤ n →
      (s.foldl (wrapStep width) wrapInit).rev.reverse = rewrap width s := by
    intro n
    induction n with
    | zero =>
      intro s h
      have hnil : s = [] := List.length_eq_zero.mp (Nat.le_zero.mp h)
      subst hnil
      rw [rewrap]
      rfl
    | succ k ih =>
      intro s h
      cases s with
      | nil => rw [rewrap]; rfl
      | cons r rs =>
        rw [List.foldl_cons,
          show wrapInit = (⟨[], 0, 0, true⟩ : WrapSt) from rfl,
          wrapStep_break width [] 0 0 true r (Or.inl rfl)]
        by_cases hn : r = 10
        · subst hn
          rw [show decide ((10 : Int) = 10) = true from rfl]
          rw [(foldl_fresh width rs _ _ [[10]]).1]
          rw [List.reverse_append]
          rw [ih rs (by simp only [List.length_cons] at h; omega)]
          rw [rewrap]
          simp [line1]
        · rw [decide_eq_false hn, if_neg hn]
          rw [foldl_line width rs _ 1 [r] []]
          rw [List.reverse_append]
          have hrest : (wrapGo width rs
              (if r = 9 then nexttabstop 0 else printwidth r) 1).2.length ≤ k := by
            have h1 := wrapGo_rest_le width rs
              (if r = 9 then nexttabstop 0 else printwidth r) 1
            simp only [List.length_cons] at h
            omega
          rw [ih _ hrest]
          rw [rewrap]
          simp only [line1, if_neg hn]
          simp
  intro s
  exact key s.length s (Nat.le_refl _)

/-- Unfolding lemma for `rewrap` on a non-empty stream. -/
theorem rewrap_cons (width : Nat) (a : Int) (rs : List Int) :
    rewrap width (a :: rs)
      = (line1 width (a :: rs)).1 :: rewrap width (line1 width (a :: rs)).2 := by
  rw [rewrap]

/-- `line1` on a stream starting with a newline. -/
theorem line1_newline (width : Nat) (a : Int) (rs : List Int) (h : a = 10) :
    line1 width (a :: rs) = ([a], rs) := by
  rw [line1, if_pos h]

/-- `line1` on a stream starting with any other rune. -/
theorem line1_other (width : Nat) (a : Int) (rs : List Int) (h : ¬a = 10) :
    line1 width (a :: rs)
      = (a :: (wrapGo width rs (if a = 9 then nexttabstop 0
            else printwidth a) 1).1,
         (wrapGo width rs (if a = 9 then nexttabstop 0
            else printwidth a) 1).2) := by
  rw [line1, if_neg h]

/-- Replay: if `wrapGo` carved the line `l` out of `l ++ rest`, then
running it on `l` followed by any stream beginning like `rest` carves out
the same line — the break decisions only look at the current rune and
budget. -/
theorem wrapGo_replay (width : Nat) :
    ∀ (l rest u : List Int) (c j : Nat),
      wrapGo width (l ++ rest) c j = (l, rest) →
      (u ≠ [] → u.head? = rest.head?) →
      wrapGo width (l ++ u) c j = (l, u) := by
  intro l
  induction l with
  | nil =>
    intro rest u c j hw hu
    cases u with
    | nil => rfl
    | cons x ys =>
      have hx : (x :: ys).head? = rest.head? := hu (by simp)
      cases rest with
      | nil => simp at hx
      | cons x0 xs =>
        simp only [List.head?_cons, Option.some.injEq] at hx
        subst hx
        rw [List.nil_append] at hw
        have hb : width < c + printwidth x ∨ width + 1 ≤ j := by
          by_contra hnb
          rw [wrapGo, if_neg hnb] at hw
          by_cases hn : x = 10
          · rw [if_pos hn] at hw
            simp at hw
          · rw [if_neg hn] at hw
            simp at hw
        rw [List.nil_append, wrapGo, if_pos hb]
  | cons a l' ih =>
    intro rest u c j hw hu
    rw [List.cons_append] at hw
    have hnb : ¬(width < c + printwidth a ∨ width + 1 ≤ j) := by
      by_contra hb
      rw [wrapGo, if_pos hb] at hw
      simp at hw
    by_cases hn : a = 10
    · rw [wrapGo, if_neg hnb, if_pos hn] at hw
      have h1 : [a] = a :: l' := congrArg Prod.fst hw
      have hl' : l' = [] := by
        simpa using h1
      subst hl'
      rw [List.cons_append, List.nil_append, wrapGo, if_neg hnb, if_pos hn]
    · rw [wrapGo, if_neg hnb, if_neg hn] at hw
      have hg : wrapGo width (l' ++ rest)
          (if a = 9 then nexttabstop c else c + printwidth a) (j + 1)
          = (l', rest) := by
        have h1 := congrArg Prod.fst hw
        have h2 := congrArg Prod.snd hw
        simp only [] at h1 h2
        have h1' : (wrapGo width (l' ++ rest)
            (if a = 9 then nexttabstop c else c + printwidth a) (j + 1)).1
            = l' := by
          simpa using h1
        exact Prod.ext h1' h2
      have hrec := ih rest u _ (j + 1) hg hu
      rw [List.cons_append, wrapGo, if_neg hnb, if_neg hn, hrec]

/-- Prefix stability of the re-wrap: re-wrapping the flattened content of
the first `r` output lines reproduces exactly those lines. -/
theorem rewrap_prefix (width : Nat) :
    ∀ (s : List Int) (r : Nat), r ≤ (rewrap width s).length →
      rewrap width ((rewrap width s).take r).flatten
        = (rewrap width s).take r := by
  have key : ∀ (n : Nat) (s : List Int), s.length ≤ n →
      ∀ r : Nat, r ≤ (rewrap width s).length →
      rewrap width ((rewrap width s).take r).flatten
        = (rewrap width s).take r := by
    intro n
    induction n with
    | zero =>
      intro s h r hr
      have hnil : s = [] := List.length_eq_zero.mp (Nat.le_zero.mp h)
      subst hnil
      rw [rewrap] at hr ⊢
      simp at hr
      subst hr
      simp
      rw [rewrap]
    | succ k ih =>
      intro s h r hr
      cases s with
      | nil =>
        rw [rewrap] at hr ⊢
        simp at hr
        subst hr
        simp
        rw [rewrap]
      | cons a rs =>
        rw [rewrap_cons] at hr ⊢
        rcases hl1 : line1 width (a :: rs) with ⟨L1, rest⟩
        simp only [hl1] at hr ⊢
        cases r with
        | zero =>
          simp
          rw [rewrap]
        | succ r1 =>
          rw [List.take_succ_cons, List.flatten_cons]
          have hrestlen : rest.length ≤ k := by
            have hlt := line1_lt width a rs
            rw [hl1] at hlt
            simp only [List.length_cons] at h hlt
            omega
          have hr1 : r1 ≤ (rewrap width rest).length := by
            simp only [List.length_cons] at hr
            omega
          have hsum : ((rewrap width rest).take r1).flatten
              ++ ((rewrap width rest).drop r1).flatten = rest := by
            rw [← List.flatten_append, List.take_append_drop, rewrap_flatten]
          have hhead : ((rewrap width rest).take r1).flatten ≠ [] →
              ((rewrap width rest).take r1).flatten.head? = rest.head? := by
            intro hne
            cases hcu : ((rewrap width rest).take r1).flatten with
            | nil => exact absurd hcu hne
            | cons v vs =>
              rw [← hsum]
              simp [hcu]
          have hL1 : L1 = a :: L1.tail := by
            by_cases hn : a = 10
            · rw [line1_newline width a rs hn] at hl1
              have : L1 = [a] := (Prod.mk.injEq _ _ _ _ ▸ hl1).1.symm
              rw [this]
              rfl
            · rw [line1_other width a rs hn] at hl1
              have := (Prod.mk.injEq _ _ _ _ ▸ hl1).1.symm
              rw [this]
              rfl
          have hline : line1 width
              (L1 ++ ((rewrap width rest).take r1).flatten)
              = (L1, ((rewrap width rest).take r1).flatten) := by
            by_cases hn : a = 10
            · rw [line1_newline width a rs hn] at hl1
              have hLa : L1 = [a] := (Prod.mk.injEq _ _ _ _ ▸ hl1).1.symm
              rw [hLa, List.cons_append, List.nil_append,
                line1_newline width a _ hn]
            · rw [line1_other width a rs hn] at hl1
              have hLa : L1 = a :: (wrapGo width rs (if a = 9 then
                  nexttabstop 0 else printwidth a) 1).1 :=
                (Prod.mk.injEq _ _ _ _ ▸ hl1).1.symm
              have hrest : rest = (wrapGo width rs (if a = 9 then
                  nexttabstop 0 else printwidth a) 1).2 :=
                (Prod.mk.injEq _ _ _ _ ▸ hl1).2.symm
              have hw0 : wrapGo width
                  ((wrapGo width rs (if a = 9 then nexttabstop 0
                    else printwidth a) 1).1
                   ++ (wrapGo width rs (if a = 9 then nexttabstop 0
                    else printwidth a) 1).2)
                  (if a = 9 then nexttabstop 0 else printwidth a) 1
                  = ((wrapGo width rs (if a = 9 then nexttabstop 0
                      else printwidth a) 1).1,
                     (wrapGo width rs (if a = 9 then nexttabstop 0
                      else printwidth a) 1).2) := by
                rw [wrapGo_split width rs _ 1]
              have hreplay := wrapGo_replay width _ _
                (((rewrap width rest).take r1).flatten)
                (if a = 9 then nexttabstop 0 else printwidth a) 1 hw0
                (by rw [← hrest]; exact hhead)
              rw [hLa, List.cons_append, line1_other width a _ hn, hreplay]
          have hform : L1 ++ ((rewrap width rest).take r1).flatten
              = a :: (L1.tail ++ ((rewrap width rest).take r1).flatten) := by
            conv_lhs => rw [hL1]
            rfl
          rw [hform, rewrap_cons, ← List.cons_append, ← hL1, hline]
          simp only []
          rw [ih rest hrestlen r1 hr1]
  intro s
  exact key s.length s (Nat.le_refl _)

/-- The logical codepoint stream of a buffer: the contents of its lines,
in order — what the flattening pass of `bufreflow` reads. -/
def bufflatten (B : Buffer) : List Int := (B.lines.map lineContent).flatten

/-- The flattened stream never contains the end-of-line sentinel. -/
theorem bufflatten_ne_eof (B : Buffer) : ∀ x ∈ bufflatten B, x ≠ RUNE_EOF := by
  intro x hx
  rw [bufflatten] at hx
  obtain ⟨l, hl, hxl⟩ := List.mem_flatten.mp hx
  obtain ⟨l0, hl0, rfl⟩ := List.mem_map.mp hl
  have := List.mem_takeWhile_imp hxl
  simpa using this

/-- The fused two-level loop of `bufreflow` equals the rune-level machine
run on the flattened stream. -/
theorem reflowSt_flatten (width : Nat) :
    ∀ (lines : List (List Int)) (st : WrapSt),
      lines.foldl (reflowLine width) st
        = ((lines.map lineContent).flatten).foldl (wrapStep width) st := by
  intro lines
  induction lines with
  | nil => intro st; rfl
  | cons l rest ih =>
    intro st
    rw [List.foldl_cons, List.map_cons, List.flatten_cons, List.foldl_append]
    exact ih _

/-- Runes of re-wrapped lines come from the stream. -/
theorem mem_rewrap_subset (width : Nat) (s l : List Int)
    (hl : l ∈ rewrap width s) : ∀ x ∈ l, x ∈ s := by
  intro x hx
  rw [← rewrap_flatten width s]
  exact List.mem_flatten.mpr ⟨l, hl, hx⟩

/-- The slot-limit break keeps `wrapGo` from collecting more than
`width + 1 - j` runes. -/
theorem wrapGo_fst_len (width : Nat) :
    ∀ (s : List Int) (c j : Nat),
      (wrapGo width s c j).1.length ≤ width + 1 - j := by
  intro s
  induction s with
  | nil => intro c j; simp [wrapGo]
  | cons r rs ih =>
    intro c j
    rw [wrapGo]
    by_cases hb : width < c + printwidth r ∨ width + 1 ≤ j
    · rw [if_pos hb]
      simp
    · rw [if_neg hb]
      push_neg at hb
      obtain ⟨-, hj⟩ := hb
      by_cases hn : r = 10
      · rw [if_pos hn]
        simp only [List.length_cons, List.length_nil]
        omega
      · rw [if_neg hn]
        simp only [List.length_cons]
        have := ih (if r = 9 then nexttabstop c else c + printwidth r) (j + 1)
        omega

/-- Every re-wrapped line fits in `width + 1` slots (one below the new
capacity `width + 2`). -/
theorem rewrap_line_len (width : Nat) :
    ∀ (s l : List Int), l ∈ rewrap width s → l.length ≤ width + 1 := by
  have key : ∀ (n : Nat) (s : List Int), s.length ≤ n →
      ∀ l ∈ rewrap width s, l.length ≤ width + 1 := by
    intro n
    induction n with
    | zero =>
      intro s h l hl
      have hnil : s = [] := List.length_eq_zero.mp (Nat.le_zero.mp h)
      subst hnil
      rw [rewrap] at hl
      exact absurd hl (by simp)
    | succ k ih =>
      intro s h l hl
      cases s with
      | nil =>
        rw [rewrap] at hl
        exact absurd hl (by simp)
      | cons a rs =>
        rw [rewrap_cons] at hl
        rcases List.mem_cons.mp hl with hl1 | hl2
        · subst hl1
          by_cases hn : a = 10
          · rw [line1_newline width a rs hn]
            simp
          · rw [line1_other width a rs hn]
            simp only [List.length_cons]
            have := wrapGo_fst_len width rs
              (if a = 9 then nexttabstop 0 else printwidth a) 1
            omega
        · refine ih (line1 width (a :: rs)).2 ?_ l hl2
          have := line1_lt width a rs
          simp only [List.length_cons] at h this
          omega
  intro s l hl
  exact key s.length s (Nat.le_refl _) l hl

/-- Padding a sentinel-free content list and reading it back is the
identity. -/
theorem lineContent_mkline :
    ∀ (c : List Int) (cap : Nat), (∀ x ∈ c, x ≠ RUNE_EOF) →
      lineContent (mkline cap c) = c := by
  intro c
  induction c with
  | nil =>
    intro cap h
    rw [mkline, lineContent]
    cases hk : cap - List.length [] with
    | zero => simp
    | succ m =>
      rw [List.nil_append, List.replicate_succ, List.takeWhile_cons]
      simp
  | cons x xs ih =>
    intro cap h
    have hx : x ≠ RUNE_EOF := h x (by simp)
    rw [mkline, List.cons_append, lineContent, List.takeWhile_cons]
    rw [if_pos (by simp [hx])]
    have hcap : cap - (x :: xs).length = (cap - 1) - xs.length := by
      simp only [List.length_cons]
      omega
    rw [hcap]
    have := ih (cap - 1) (fun y hy => h y (by simp [hy]))
    rw [mkline, lineContent] at this
    rw [this]

/-- The first component of `bufreflow` in closed form: the re-wrap of the
flattened stream, padded to the new capacity. -/
theorem bufreflow_fst (B : Buffer) (width row : Nat) :
    (bufreflow B width row).1
      = ⟨(rewrap width (bufflatten B)).map (mkline (width + 2)),
         width + 2⟩ := by
  simp only [bufreflow]
  have h1 : reflowSt width B.lines
      = (bufflatten B).foldl (wrapStep width) wrapInit :=
    reflowSt_flatten width B.lines wrapInit
  have h2 := wrapAll_eq_rewrap width (bufflatten B)
  rw [h1] at *
  rw [← h2]

/-- Identity of the per-line read-back on re-wrapped content. -/
theorem rewrap_content_id (width : Nat) (S : List Int)
    (hfree : ∀ x ∈ S, x ≠ RUNE_EOF) :
    ∀ l ∈ rewrap width S, lineContent (mkline (width + 2) l) = l := by
  intro l hl
  exact lineContent_mkline l (width + 2)
    (fun x hx => hfree x (mem_rewrap_subset width S l hl x hx))

/-- Reflowing preserves the flattened codepoint stream. -/
theorem bufflatten_reflow (B : Buffer) (width row : Nat) :
    bufflatten (bufreflow B width row).1 = bufflatten B := by
  rw [bufreflow_fst]
  show ((((rewrap width (bufflatten B)).map (mkline (width + 2))).map
    lineContent)).flatten = bufflatten B
  rw [List.map_map]
  simp only [Function.comp_def]
  rw [List.map_congr_left (fun l hl => rewrap_content_id width (bufflatten B)
    (bufflatten_ne_eof B) l hl)]
  simp only [List.map_id_fun', id_eq, List.map_id']
  exact rewrap_flatten width (bufflatten B)

/-- `reflowSt` in terms of the rune-level machine. -/
theorem reflowSt_eq (width : Nat) (lines : List (List Int)) :
    reflowSt width lines
      = ((lines.map lineContent).flatten).foldl (wrapStep width) wrapInit :=
  reflowSt_flatten width lines wrapInit

/-- C5 (amended): reflowing preserves the flattened codepoint stream of
any buffer; and on a buffer that `bufreflow` itself produced, reflowing
again at the same width is the identity on the lines and on every tracked
row in `[1, len]` (row 0, through the `size_t` wrap of `row - 1`, maps to
the new length instead). -/
theorem bufreflow_idem :
    (∀ (B : Buffer) (width row : Nat),
      bufflatten (bufreflow B width row).1 = bufflatten B)
    ∧ (∀ (B : Buffer) (width r0 r : Nat), 1 ≤ r →
      r ≤ (bufreflow B width r0).1.lines.length →
      bufreflow (bufreflow B width r0).1 width r
        = ((bufreflow B width r0).1, r)) := by
  refine ⟨bufflatten_reflow, ?_⟩
  intro B width r0 r hr1 hrlen
  have hfst := bufreflow_fst B width r0
  have hflat := bufflatten_reflow B width r0
  obtain ⟨B1, hB1⟩ : ∃ B1, B1 = (bufreflow B width r0).1 := ⟨_, rfl⟩
  rw [← hB1] at hrlen hfst hflat ⊢
  have hlen1 : B1.lines.length = (rewrap width (bufflatten B)).length := by
    rw [hfst]
    simp
  have hLlen : r ≤ (rewrap width (bufflatten B)).length := by
    rw [← hlen1]
    exact hrlen
  refine Prod.ext ?_ ?_
  · show (bufreflow B1 width r).1 = B1
    rw [bufreflow_fst B1 width r, hflat, hfst]
  · show (bufreflow B1 width r).2 = r
    simp only [bufreflow]
    rw [if_pos ⟨hr1, hrlen⟩]
    have htake : B1.lines.take r
        = ((rewrap width (bufflatten B)).take r).map (mkline (width + 2)) := by
      simp only [hfst]
      exact (List.map_take _ _ _).symm
    have hmapcontent : ((((rewrap width (bufflatten B)).take r).map
        (mkline (width + 2))).map lineContent)
        = (rewrap width (bufflatten B)).take r := by
      rw [List.map_map]
      simp only [Function.comp_def]
      rw [List.map_congr_left (fun l hl =>
        rewrap_content_id width (bufflatten B) (bufflatten_ne_eof B) l
          (List.take_subset _ _ hl))]
      simp only [List.map_id_fun', id_eq, List.map_id']
    rw [htake, reflowSt_eq, hmapcontent]
    have hrev := wrapAll_eq_rewrap width
      (((rewrap width (bufflatten B)).take r).flatten)
    have hlenrev : ((((rewrap width (bufflatten B)).take r).flatten).foldl
        (wrapStep width) wrapInit).rev.length
        = (rewrap width (((rewrap width (bufflatten B)).take
            r).flatten)).length := by
      rw [← hrev, List.length_reverse]
    rw [hlenrev, rewrap_prefix width (bufflatten B) r hLlen,
      List.length_take]
    omega

/-- A one-line buffer holding "a" at capacity 3 (width 1). -/
def c5B : Buffer := ⟨[mkline 3 [97]], 3⟩

/-- C5 counterexample: reflowing the one-line buffer "a" at its current
width 1 with tracked row `0 ∈ [0, len]` reproduces the same single line
but sets the new tracked row to 1, not to the original 0 — `row = 0`
makes the C comparison `i == row - 1` wrap, so only the post-loop
assignment `*newrow = new->len` fires. -/
theorem bufreflow_claim_counterexample :
    c5B.lines.length = 1 ∧ (bufreflow c5B 1 0).1.lines = c5B.lines ∧
      (bufreflow c5B 1 0).2 = 1 := by decide

/-- Witness for the amended C5 at the concrete one-line buffer. -/
theorem bufreflow_idem_witness :
    bufreflow (bufreflow c5B 1 1).1 1 1 = ((bufreflow c5B 1 1).1, 1) :=
  bufreflow_idem.2 c5B 1 1 1 (by decide) (by decide)

/-- Padded lines at full capacity with bounded, sentinel-free content
keep the last capacity slot at the sentinel and a content length below
capacity. -/
theorem mkline_spec (cap : Nat) (c : List Int) (hlen : c.length ≤ cap - 1)
    (hcap : 1 ≤ cap) (hfree : ∀ x ∈ c, x ≠ RUNE_EOF) :
    (mkline cap c).length = cap ∧
      (mkline cap c).getD (cap - 1) RUNE_EOF = RUNE_EOF ∧
      linelen (mkline cap c) < cap := by
  have hcl : c.length ≤ cap := by omega
  refine ⟨?_, ?_, ?_⟩
  · rw [mkline, List.length_append, List.length_replicate]
    omega
  · rw [mkline, List.getD_append_right _ _ _ _ (by omega),
      List.getD_eq_getElem?_getD]
    exact List.getElem?_getD_replicate_default_eq _ _ _
  · rw [show linelen (mkline cap c) = (lineContent (mkline cap c)).length
      from rfl, lineContent_mkline c cap hfree]
    omega

/-- The rune loop of `wingetline` collects at most its fuel's worth of
runes and never stores the sentinel. -/
theorem wingetlineGo_spec (cols : Nat) :
    ∀ (k : Nat) (inp : Input) (w : Nat),
      (wingetlineGo cols k inp w).1.length ≤ k ∧
        ∀ x ∈ (wingetlineGo cols k inp w).1, x ≠ RUNE_EOF := by
  intro k
  induction k with
  | zero =>
    intro inp w
    exact ⟨Nat.le_refl _, by simp [wingetlineGo]⟩
  | succ k2 ih =>
    intro inp w
    rw [wingetlineGo]
    by_cases h1 : (inputgetrune inp).1 = RUNE_EOF
    · rw [if_pos h1]
      exact ⟨by simp, by simp⟩
    · rw [if_neg h1]
      by_cases h2 : cols < w + printwidth (inputgetrune inp).1
      · rw [if_pos h2]
        exact ⟨by simp, by simp⟩
      · rw [if_neg h2]
        by_cases h3 : (inputgetrune inp).1 = 10
        · rw [if_pos h3]
          refine ⟨by simp, ?_⟩
          intro x hx
          simp only [List.mem_singleton] at hx
          subst hx
          exact h1
        · rw [if_neg h3]
          simp only [List.length_cons, List.mem_cons]
          obtain ⟨ihl, ihm⟩ := ih (inputgetrune inp).2
            (if (inputgetrune inp).1 = 9 then nexttabstop w
              else w + printwidth (inputgetrune inp).1)
          refine ⟨by omega, ?_⟩
          intro x hx
          rcases hx with hx | hx
          · subst hx
            exact h1
          · exact ihm x hx

/-- C10: every line stored in a Buffer keeps its last capacity slot equal
to the end-of-line sentinel, with content strictly shorter than the
capacity — for the zero-filled lines of `bufnewline` (every slot is the
sentinel), for the line `wingetline` appends, and for every line
`bufreflow` builds — so `linelen` and every per-line scan stop within
the line's capacity. -/
theorem line_sentinel_invariant :
    (∀ cap : Nat, (mkline cap []).length = cap ∧
      ∀ i : Nat, (mkline cap []).getD i RUNE_EOF = RUNE_EOF)
    ∧ (∀ (w : Window) (inp : Input), 1 ≤ w.buf.linecap →
      ∀ l ∈ (wingetline w inp).2.1.buf.lines, l ∈ w.buf.lines ∨
        (l.length = w.buf.linecap ∧
         l.getD (w.buf.linecap - 1) RUNE_EOF = RUNE_EOF ∧
         linelen l < w.buf.linecap))
    ∧ (∀ (B : Buffer) (width row : Nat),
      ∀ l ∈ (bufreflow B width row).1.lines, l.length = width + 2 ∧
        l.getD (width + 1) RUNE_EOF = RUNE_EOF ∧
        linelen l < width + 2) := by
  refine ⟨?_, ?_, ?_⟩
  · intro cap
    constructor
    · rw [mkline, List.length_append, List.length_replicate]
      simp
    · intro i
      rw [mkline, List.nil_append, List.getD_eq_getElem?_getD]
      exact List.getElem?_getD_replicate_default_eq _ _ _
  · intro w inp hcap l hl
    rw [wingetline] at hl
    by_cases hend : inputatend inp
    · rw [if_pos hend] at hl
      exact Or.inl hl
    · rw [if_neg hend] at hl
      simp only [List.mem_append, List.mem_singleton] at hl
      rcases hl with hl | hl
      · exact Or.inl hl
      · right
        subst hl
        obtain ⟨hle, hfree⟩ := wingetlineGo_spec w.cols (w.buf.linecap - 1)
          inp 0
        exact mkline_spec w.buf.linecap _ hle hcap hfree
  · intro B width row l hl
    rw [bufreflow_fst] at hl
    simp only [List.mem_map] at hl
    obtain ⟨c, hc, rfl⟩ := hl
    exact mkline_spec (width + 2) c
      (by
        have := rewrap_line_len width (bufflatten B) c hc
        omega)
      (by omega)
      (fun x hx => bufflatten_ne_eof B x
        (mem_rewrap_subset width (bufflatten B) c hc x hx))

/-- Witness for C10: the `wingetline` conjunct at a concrete window. -/
theorem line_sentinel_invariant_witness :
    mkline 7 [97] ∈ (wingetline c4Win inputDone).2.1.buf.lines ∨
      ((mkline 7 [97] : List Int).length = c4Win.buf.linecap ∧
       (mkline 7 [97] : List Int).getD (c4Win.buf.linecap - 1) RUNE_EOF
         = RUNE_EOF ∧
       linelen (mkline 7 [97]) < c4Win.buf.linecap) :=
  line_sentinel_invariant.2.1 c4Win inputDone (by decide) (mkline 7 [97])
    (by decide)

/-- The decoder never produces the end-of-input sentinel on available
bytes: its outputs are a byte value, the replacement codepoint, or an
accumulated (non-negative) codepoint. -/
theorem utfdecodeTail_ne_eof (s : List Nat) (g k : Nat) :
    (utfdecodeTail s g k).1 ≠ RUNE_EOF := by
  rw [utfdecodeTail]
  by_cases h1 : s.length < k
  · rw [if_pos h1]
    decide
  · rw [if_neg h1]
    cases hacc : utfaccum g ((s.drop 1).take (k - 1)) with
    | none =>
      show ((RUNE_INVALID, 1) : Int × Nat).1 ≠ RUNE_EOF
      decide
    | some got =>
      show (if 0xD800 ≤ got ∧ got ≤ 0xDFFF then (RUNE_INVALID, 1)
        else ((got : Int), k)).1 ≠ RUNE_EOF
      by_cases hs : 0xD800 ≤ got ∧ got ≤ 0xDFFF
      · rw [if_pos hs]
        decide
      · rw [if_neg hs]
        show ((got : Int), k).1 ≠ RUNE_EOF
        simp only [RUNE_EOF]
        omega

/-- Decoding a non-empty byte sequence never yields `RUNE_EOF`. -/
theorem utfdecode_ne_eof (b0 : Nat) (rest : List Nat) :
    (utfdecode (b0 :: rest)).1 ≠ RUNE_EOF := by
  rw [utfdecode]
  by_cases ha : b0 &&& 0x80 = 0
  · rw [if_pos ha]
    show ((b0 : Int), 1).1 ≠ RUNE_EOF
    simp only [RUNE_EOF]
    omega
  · rw [if_neg ha]
    by_cases h4 : b0 &&& 0xF8 = 0xF0
    · rw [if_pos h4]
      exact utfdecodeTail_ne_eof _ _ _
    · rw [if_neg h4]
      by_cases h3 : b0 &&& 0xF0 = 0xE0
      · rw [if_pos h3]
        exact utfdecodeTail_ne_eof _ _ _
      · rw [if_neg h3]
        by_cases h2 : b0 &&& 0xE0 = 0xC0
        · rw [if_pos h2]
          exact utfdecodeTail_ne_eof _ _ _
        · rw [if_neg h2]
          decide

/-- Decoding a non-empty byte sequence consumes at least one byte. -/
theorem utfdecode_pos (b0 : Nat) (rest : List Nat) :
    1 ≤ (utfdecode (b0 :: rest)).2 := by
  have tail2 : ∀ (s : List Nat) (g k : Nat), 0 < k →
      1 ≤ (utfdecodeTail s g k).2 := by
    intro s g k hk
    rw [utfdecodeTail]
    by_cases h1 : s.length < k
    · simp [h1]
    · rw [if_neg h1]
      cases hacc : utfaccum g ((s.drop 1).take (k - 1)) with
      | none =>
        show 1 ≤ ((RUNE_INVALID, 1) : Int × Nat).2
        decide
      | some got =>
        show 1 ≤ (if 0xD800 ≤ got ∧ got ≤ 0xDFFF then (RUNE_INVALID, 1)
          else ((got : Int), k)).2
        by_cases hs : 0xD800 ≤ got ∧ got ≤ 0xDFFF
        · rw [if_pos hs]
        · rw [if_neg hs]
          show 1 ≤ k
          omega
  rw [utfdecode]
  by_cases ha : b0 &&& 0x80 = 0
  · simp [ha]
  · rw [if_neg ha]
    by_cases h4 : b0 &&& 0xF8 = 0xF0
    · rw [if_pos h4]
      exact tail2 _ _ _ (by omega)
    · rw [if_neg h4]
      by_cases h3 : b0 &&& 0xF0 = 0xE0
      · rw [if_pos h3]
        exact tail2 _ _ _ (by omega)
      · rw [if_neg h3]
        by_cases h2 : b0 &&& 0xE0 = 0xC0
        · rw [if_pos h2]
          exact tail2 _ _ _ (by omega)
        · rw [if_neg h2]

/-- Print widths never exceed two columns. -/
theorem printwidth_le_two (r : Int) : printwidth r ≤ 2 := by
  rw [printwidth]
  by_cases h1 : iscntrl r
  · simp [h1]
  · rw [if_neg h1]
    by_cases h2 : r = 10 ∨ r = 9
    · rw [if_pos (by simpa using h2)]
      omega
    · rw [if_neg (by simpa using h2)]
      omega

/-- Termination measure on the input: undelivered bytes, queued bytes,
the pushback slot, and the not-yet-tripped end flag. -/
def mu (i : Input) : Nat :=
  i.stream.length + i.buf.length +
    (if i.unread = RUNE_EOF then 0 else 1) + (if i.eof then 0 else 1)

/-- A drained measure means the input reports end. -/
theorem mu_zero_atend (i : Input) (h : mu i = 0) : inputatend i = true := by
  rw [mu] at h
  by_cases hu : i.unread = RUNE_EOF
  · by_cases he : i.eof
    · rw [if_pos hu, if_pos he] at h
      have hb : i.buf.length = 0 := by omega
      rw [inputatend, hu, he]
      simp [hb]
    · rw [if_neg he] at h
      omega
  · rw [if_neg hu] at h
    omega

/-- Refilling the lookahead conserves bytes, keeps the pushback, and can
only lower the measure (by tripping the end flag). -/
theorem mu_fill (i : Input) :
    mu (inputfill i) ≤ mu i ∧ (inputfill i).unread = i.unread ∧
      ((inputfill i).buf = [] → i.buf = [] ∧ (inputfill i).eof = true) ∧
      (¬i.eof = true → i.buf = [] → i.stream = [] →
        mu (inputfill i) < mu i) := by
  have hfb : (inputfill i).buf = i.buf ++ i.stream.take (4 - i.buf.length) :=
    rfl
  have hfs : (inputfill i).stream = i.stream.drop (4 - i.buf.length) := rfl
  have hfu : (inputfill i).unread = i.unread := rfl
  have hfe : (inputfill i).eof
      = (i.eof || decide (i.stream.length < 4 - i.buf.length)) := rfl
  refine ⟨?_, hfu, ?_, ?_⟩
  · rw [mu, mu, hfb, hfs, hfu, hfe, List.length_append, List.length_take,
      List.length_drop]
    have h1 : (if (i.eof || decide (i.stream.length < 4 - i.buf.length))
          = true then 0 else 1) ≤ (if i.eof = true then 0 else 1) := by
      by_cases he : i.eof
      · simp [he]
      · simp only [Bool.not_eq_true] at he
        rw [he]
        simp only [Bool.false_or, Bool.false_eq_true, if_false]
        split <;> omega
    have hmin1 : (4 - i.buf.length) ⊓ i.stream.length ≤ i.stream.length :=
      Nat.min_le_right _ _
    have hmin2 : (4 - i.buf.length) ⊓ i.stream.length ≤ 4 - i.buf.length :=
      Nat.min_le_left _ _
    generalize hE1 : (if (i.eof || decide (i.stream.length
        < 4 - i.buf.length)) = true then 0 else 1) = e1 at h1 ⊢
    generalize hE2 : (if i.eof = true then 0 else 1) = e2 at h1 ⊢
    generalize hU : (if i.unread = RUNE_EOF then 0 else 1) = u
    generalize hm : (4 - i.buf.length) ⊓ i.stream.length = m at hmin1 hmin2 ⊢
    clear hE1 hE2 hU hm hfb hfs hfu hfe
    omega
  · intro hb
    rw [hfb] at hb
    have h0 := List.append_eq_nil.mp hb
    refine ⟨h0.1, ?_⟩
    have hst : i.stream = [] := by
      have h2 := h0.2
      rw [h0.1] at h2
      simpa using h2
    rw [hfe, hst, h0.1]
    simp
  · intro he hb hs
    rw [mu, mu, hfb, hfs, hfu, hfe, hb, hs]
    simp [he]

/-- A maximally degenerate window: zero rows and zero columns, as built by
`winnew 0 0`. -/
def c8Win : Window := winnew 0 0

/-- A one-byte input stream holding the letter `a` (0x61). -/
def c8In : Input := inputnew [97]

/-- The state the input reaches after one `wingetline` against a
zero-column window: stream drained, end flag set, lookahead empty, and the
overflowing rune parked in the pushback slot. -/
def c8Stuck : Input := { stream := [], eof := true, buf := [], unread := 97 }

/-- With zero columns the rune loop immediately re-ungets the pushed-back
rune: `c8Stuck` is a fixed point of the line builder. -/
theorem wingetlineGo_stuck (k : Nat) :
    wingetlineGo 0 k c8Stuck 0 = ([], c8Stuck) := by
  cases k with
  | zero => rfl
  | succ k =>
    have hg : inputgetrune c8Stuck
        = (97, { stream := [], eof := true, buf := [], unread := RUNE_EOF })
      := rfl
    simp only [wingetlineGo, hg]
    norm_num [printwidth, iscntrl, RUNE_EOF, inputungetrune, c8Stuck]

/-- Against any zero-column window, `wingetline` reports more input,
appends an empty line, and leaves the input at `c8Stuck`. -/
theorem wingetline_stuck (w : Window) (hc : w.cols = 0) :
    wingetline w c8Stuck
      = (false,
         { w with buf := { w.buf with
            lines := w.buf.lines ++ [mkline w.buf.linecap []] } },
         c8Stuck) := by
  rw [wingetline, if_neg (by decide)]
  rw [hc, wingetlineGo_stuck]

/-- The drain loop of `winscrollbot` makes no progress from `c8Stuck` on
a zero-column window: every fuel amount is exhausted. -/
theorem winscrollbotGo_stuck (n : Nat) :
    ∀ w : Window, w.cols = 0 → winscrollbotGo n w c8Stuck = none := by
  induction n with
  | zero => intro w _; rfl
  | succ n ih =>
    intro w hc
    simp only [winscrollbotGo, wingetline_stuck w hc]
    exact ih _ hc

/-- C8: the claim fails, and the code is at fault.  A window with zero
rows and zero columns is exactly the degenerate geometry the claim covers,
and `c8In` is a finite (one-byte) input stream that is not yet at end; yet
`winscrollbot` — the C `while (!wingetline(win, in));` drain loop — never
terminates on it, no matter how much fuel it is given.  `wingetline`
pushes the decoded rune back because its print width 1 exceeds the window
width 0, so the next iteration re-reads and re-ungets the same rune
forever, appending an empty line each time. -/
theorem winscrollbot_degenerate_code_bug :
    c8Win.rows = 0 ∧ c8Win.cols = 0 ∧ inputatend c8In = false ∧
      c8In.stream.length = 1 ∧
      ∀ fuel, winscrollbot fuel c8Win c8In = none := by
  refine ⟨rfl, rfl, rfl, rfl, ?_⟩
  intro fuel
  have hgo : winscrollbotGo fuel c8Win c8In = none := by
    cases fuel with
    | zero => rfl
    | succ n =>
      have h1 : wingetline c8Win c8In
          = (false,
             { c8Win with buf := { c8Win.buf with
                lines := c8Win.buf.lines ++ [mkline c8Win.buf.linecap []] } },
             c8Stuck) := rfl
      simp only [winscrollbotGo, h1]
      exact winscrollbotGo_stuck n _ rfl
  rw [winscrollbot, hgo]

end Spg
